import Mathlib

/-!
# Verification of the `calculator` package of NeonTowel/ipcalc-go

This file gives a shallow embedding of the IPv4 part of the repository's
`pkg/calculator` package (file embedded from `src/unnamed/part_000`) and proves
the specification claims about it.

Conventions of the embedding:

* Go `uint32` values are represented as `Nat` together with explicit reduction
  `% 2^32` exactly at the operations where Go's fixed-width arithmetic can
  overflow (shifts, additions, subtractions, multiplications).  Go `int` is
  64-bit on the release targets (`amd64`/`arm64`); `strconv.Atoi` is modelled
  with the `int64` range check.
* Go errors are `fmt.Errorf` strings; the embedding returns
  `Except String α` carrying the exact message text.
* The two loops of the source that can genuinely diverge (`Deaggregate`'s
  outer loop when the cursor wraps, and `SplitNetwork`'s `hostsNeeded`
  doubling loop when it wraps to `0`) are modelled with an explicit fuel
  parameter; `none` (fuel exhaustion at a fuel provably sufficient for every
  terminating execution) models divergence of the Go program.
* `net.ParseIP` (Go standard library, Go ≥ 1.17 semantics via
  `net/netip.ParseAddr`) is modelled byte-for-byte: strict dotted-quad
  (no leading zeros, 4 fields, each ≤ 255), the IPv6 state machine with `::`
  compression and embedded trailing IPv4, and rejection of `%` zones
  (`net.ParseIP` returns `nil` whenever a zone or a stray `%` is present,
  so any input containing `%` is rejected).  `IP.To4` succeeds exactly on
  the 16-byte forms whose first ten bytes are zero followed by `0xff 0xff`.
-/

/-- The constant `2^32`, the modulus of Go `uint32` arithmetic. -/
def u32 : Nat := 4294967296

/-- Go `uint32` subtraction `a - b` (wrap-around). -/
def sub32 (a b : Nat) : Nat := (a + (u32 - b % u32)) % u32

/-- Go conversion `uint32(i)` of a Go `int` (64-bit, two's complement):
truncation to the low 32 bits. -/
def u32ofInt (i : Int) : Nat := (i % (4294967296 : Int)).toNat

/-! ## Model of Go `net.ParseIP` (strict, Go ≥ 1.17 / netip semantics) -/

/-- Decimal digit test `'0' <= c && c <= '9'` of the Go parsers. -/
def isDig (c : Char) : Bool := '0' ≤ c && c ≤ '9'

/-- Value of a decimal digit character. -/
def digVal (c : Char) : Nat := c.toNat - 48

/-- Model of `net/netip.parseIPv4` on the character list: strict dotted-quad.
State: `pos` = number of completed fields, `val`/`digLen` = value and digit
count of the current field, `fields` = completed field values.  Mirrors the
Go loop including the leading-zero, `>255`, dot-placement and field-count
checks. -/
def v4Go : List Char → Nat → Nat → Nat → List Nat → Option (List Nat)
  | [], pos, val, _, fields =>
    -- end of string: Go requires pos = 3 and takes `val` as the last field
    if pos < 3 then none else some (fields ++ [val])
  | c :: rest, pos, val, digLen, fields =>
    if isDig c then
      -- leading zero in a field is rejected
      if digLen = 1 && val = 0 then none
      else
        let val' := val * 10 + digVal c
        if val' > 255 then none
        else v4Go rest pos val' (digLen + 1) fields
    else if c = '.' then
      -- a dot at the start, right after a dot, or at the very end is rejected
      if digLen = 0 || rest.isEmpty then none
      else if pos = 3 then none
      else v4Go rest (pos + 1) 0 0 (fields ++ [val])
    else none

/-- Entry point `parseIPv4` of netip: parse a whole string as strict dotted-quad,
returning the four field values. -/
def parseV4Go (s : List Char) : Option (List Nat) := v4Go s 0 0 0 []

/-- Value of a hexadecimal digit character, if any (netip's inline hex scan). -/
def hexVal (c : Char) : Option Nat :=
  if '0' ≤ c && c ≤ '9' then some (c.toNat - 48)
  else if 'a' ≤ c && c ≤ 'f' then some (c.toNat - 87)
  else if 'A' ≤ c && c ≤ 'F' then some (c.toNat - 70)
  else none

/-- netip's hex-chunk scan: consume leading hex digits, accumulating the value
and failing (like Go) as soon as the accumulator exceeds `0xFFFF`.
Returns the accumulated value, the number of digits consumed, and the rest. -/
def hexRun : List Char → Nat → Nat → Option (Nat × Nat × List Char)
  | [], acc, cnt => some (acc, cnt, [])
  | c :: rest, acc, cnt =>
    match hexVal c with
    | none => some (acc, cnt, c :: rest)
    | some v =>
      let acc' := acc * 16 + v
      if acc' > 65535 then none else hexRun rest acc' (cnt + 1)

/-- Final phase of `netip.parseIPv6`: reject leftover input, expand the `::`
ellipsis (which must stand for at least one zero group), and require exactly
16 bytes. -/
def v6Finish (bytes : List Nat) (i : Nat) (ell : Option Nat) (s : List Char) :
    Option (List Nat) :=
  if ¬s.isEmpty then none
  else if i < 16 then
    match ell with
    | none => none
    | some e => some (bytes.take e ++ List.replicate (16 - i) 0 ++ bytes.drop e)
  else
    match ell with
    | some _ => none
    | none => some bytes

/-- Main loop of `netip.parseIPv6` (zone already excluded).  `i` counts bytes
produced so far, `ell` is the position of the `::` ellipsis if seen.  The Go
loop runs at most 8 iterations (`i` grows by at least 2 each time), so the
fuel of 9 used below never runs out. -/
def v6Loop : Nat → List Char → Nat → Option Nat → List Nat → Option (List Nat)
  | 0, _, _, _, _ => none
  | fuel + 1, s, i, ell, bytes =>
    if i < 16 then
      match hexRun s 0 0 with
      | none => none
      | some (acc, cnt, rest) =>
        if cnt = 0 then none
        else if rest.head? = some '.' then
          -- trailing embedded IPv4: allowed at i = 12, or anywhere after `::`
          if ell = none && i ≠ 12 then none
          else if i + 4 > 16 then none
          else
            match parseV4Go s with
            | none => none
            | some fields => v6Finish (bytes ++ fields) (i + 4) ell []
        else
          let bytes' := bytes ++ [acc / 256, acc % 256]
          match rest with
          | [] => v6Finish bytes' (i + 2) ell []
          | c :: rest2 =>
            if c ≠ ':' then none
            else
              match rest2 with
              | [] => none  -- colon at end of string
              | c2 :: rest3 =>
                if c2 = ':' then
                  if ell ≠ none then none  -- multiple ::
                  else
                    match rest3 with
                    | [] => v6Finish bytes' (i + 2) (some (i + 2)) []
                    | _ => v6Loop fuel rest3 (i + 2) (some (i + 2)) bytes'
                else v6Loop fuel rest2 (i + 2) ell bytes'
    else v6Finish bytes i ell s

/-- Model of `netip.parseIPv6` (without zone): handle a leading `::`, then run the
main loop. -/
def parseV6Go (s : List Char) : Option (List Nat) :=
  match s with
  | ':' :: ':' :: rest =>
    if rest.isEmpty then some (List.replicate 16 0)
    else v6Loop 9 rest 0 (some 0) []
  | _ => v6Loop 9 s 0 none []

/-- The family dispatch of `netip.ParseAddr`: scan for the first `.`, `:`
or `%`; a dot selects the IPv4 parser, a colon the IPv6 parser, a bare `%`
(or no separator at all) is an error. -/
def firstSep : List Char → Option Char
  | [] => none
  | c :: rest => if c = '.' || c = ':' || c = '%' then some c else firstSep rest

/-- The `::ffff:` prefix of the 16-byte (`As16`) form of an IPv4 address. -/
def v4mapped : List Nat := [0, 0, 0, 0, 0, 0, 0, 0, 0, 0, 255, 255]

/-- Model of Go `net.ParseIP`, producing the 16-byte (`As16`) form.
`net.ParseIP` returns `nil` for every input containing `%` (netip fails on a
`%` with an empty zone and on a `%` before any separator, and `net.parseIP`
rejects every address carrying a nonempty zone), so such inputs are rejected
up front. -/
def goParseIP (s : String) : Option (List Nat) :=
  if s.data.contains '%' then none
  else
    match firstSep s.data with
    | some '.' => (parseV4Go s.data).map (fun f => v4mapped ++ f)
    | some ':' => parseV6Go s.data
    | _ => none

/-- Go `IP.To4` on a 16-byte address: succeeds iff the first ten bytes are
zero and bytes 10 and 11 are `0xff`, yielding the last four bytes. -/
def to4 : List Nat → Option (Nat × Nat × Nat × Nat)
  | [a0, a1, a2, a3, a4, a5, a6, a7, a8, a9, a10, a11, a12, a13, a14, a15] =>
    if a0 = 0 && a1 = 0 && a2 = 0 && a3 = 0 && a4 = 0 && a5 = 0 && a6 = 0 &&
       a7 = 0 && a8 = 0 && a9 = 0 && a10 = 255 && a11 = 255 then
      some (a12, a13, a14, a15)
    else none
  | _ => none

/-- Function `ParseIPv4` of the calculator package: `net.ParseIP` followed by `To4`,
then `uint32(b0)<<24 | uint32(b1)<<16 | uint32(b2)<<8 | uint32(b3)`.
The `% 256` mirrors the `uint8` width of the bytes (the parser only ever
produces byte values below 256). -/
def ParseIPv4 (s : String) : Except String Nat :=
  match goParseIP s with
  | none => .error ("invalid IP address: " ++ s)
  | some b =>
    match to4 b with
    | none => .error ("not an IPv4 address: " ++ s)
    | some (b0, b1, b2, b3) =>
      .ok ((b0 % 256) * 16777216 + (b1 % 256) * 65536 + (b2 % 256) * 256 + b3 % 256)

deriving instance DecidableEq for Except

/-! ## Model of `strconv.Atoi` -/

/-- The `strconv.Atoi` digit run: value of a nonempty all-digit character list. -/
def decRun : List Char → Nat → Option Nat
  | [], acc => some acc
  | c :: rest, acc => if isDig c then decRun rest (acc * 10 + digVal c) else none

/-- Model of Go `strconv.Atoi` (64-bit `int`): an optional single sign
followed by at least one digit, all digits, with the `int64` range check of
`strconv.ParseInt` (out-of-range input returns an error, which is all the
caller inspects). -/
def goAtoi (s : List Char) : Option Int :=
  let core : List Char → Bool → Option Int := fun ds neg =>
    match ds with
    | [] => none
    | _ =>
      match decRun ds 0 with
      | none => none
      | some v =>
        let i : Int := if neg then -(v : Int) else (v : Int)
        if i < -9223372036854775808 ∨ i > 9223372036854775807 then none else some i
  match s with
  | [] => none
  | '-' :: rest => core rest true
  | '+' :: rest => core rest false
  | _ => core s false

/-! ## The calculator package -/

/-- Model of `strings.TrimPrefix(s, "/")`. -/
def trimSlash (s : String) : String :=
  match s.data with
  | '/' :: rest => String.mk rest
  | _ => s

/-- The mask-building loop of `ParseNetmask`'s numeric branch:
`for i := 0; i < bitCount; i++ { mask |= 1 << (31 - i) }`. -/
def prefixMaskLoop (bitCount : Nat) : Nat :=
  (List.range bitCount).foldl (fun m i => m ||| (1 <<< (31 - i))) 0

/-- The netmask of prefix length `k` as a closed formula (`k ≤ 32`):
the top `k` bits of a 32-bit word. -/
def prefixMask (k : Nat) : Nat := u32 - 2 ^ (32 - k)

/-- The bit-counting loop of `ParseNetmask`'s dotted branch: count set bits
from bit 31 downward, stopping at the first clear bit.  The argument `j`
is the number of bit positions still to scan (bits `j-1` down to `0`). -/
def leadCount (mask : Nat) : Nat → Nat
  | 0 => 0
  | j + 1 => if mask &&& (1 <<< j) ≠ 0 then 1 + leadCount mask j else 0

/-- The scan of `isValidNetmask`: bits 31 down to 0; `foundZero` records that
a clear bit has been seen, after which any set bit makes the mask invalid.
The argument `j` is the number of bit positions still to scan. -/
def validScan (mask : Nat) : Nat → Bool → Bool
  | 0, _ => true
  | j + 1, foundZero =>
    if mask &&& (1 <<< j) ≠ 0 then
      if foundZero then false else validScan mask j foundZero
    else validScan mask j true

/-- Predicate `isValidNetmask` of the source: contiguous 1s followed by contiguous 0s. -/
def isValidNetmask (mask : Nat) : Bool := validScan mask 32 false

/-- Function `ParseNetmask`: strip a leading `/`, try `strconv.Atoi` (prefix-length
form, range-checked to `[0,32]`), else parse as dotted-quad and validate
contiguity, counting the leading 1 bits.  Returns (mask, bit count). -/
def ParseNetmask (maskStr : String) : Except String (Nat × Nat) :=
  let t := trimSlash maskStr
  match goAtoi t.data with
  | some bitCount =>
    if bitCount < 0 ∨ bitCount > 32 then
      .error ("invalid bit count: " ++ toString bitCount ++ " (must be between 0 and 32)")
    else .ok (prefixMaskLoop bitCount.toNat, bitCount.toNat)
  | none =>
    match ParseIPv4 t with
    | .error _ => .error ("invalid netmask: " ++ t)
    | .ok mask =>
      if ¬isValidNetmask mask then
        .error ("invalid netmask: " ++ t ++ " (not contiguous)")
      else .ok (mask, leadCount mask 32)

/-- Function `IPToString`: dotted-decimal rendering of a `uint32`. -/
def IPToString (ip : Nat) : String :=
  toString ((ip >>> 24) &&& 255) ++ "." ++ toString ((ip >>> 16) &&& 255) ++ "." ++
    toString ((ip >>> 8) &&& 255) ++ "." ++ toString (ip &&& 255)

/-- Function `GetClass`: the classful-addressing class letter of an address. -/
def GetClass (ip : Nat) : String :=
  if ip &&& 0x80000000 = 0 then "A"
  else if ip &&& 0xC0000000 = 0x80000000 then "B"
  else if ip &&& 0xE0000000 = 0xC0000000 then "C"
  else if ip &&& 0xF0000000 = 0xE0000000 then "D"
  else "E"

/-- The `IPv4Network` result record of `CalculateNetwork`. -/
structure IPv4Network where
  address : Nat
  netmask : Nat
  bitCount : Nat
  broadcast : Nat
  networkID : Nat
  hostMin : Nat
  hostMax : Nat
  hostsCount : Nat
  cls : String
  deriving Repr, DecidableEq

/-- Function `GetWildcardMask`: Go `^netmask` on `uint32`, i.e. complement within
32 bits (XOR with `0xFFFFFFFF`). -/
def GetWildcardMask (netmask : Nat) : Nat := netmask ^^^ 0xFFFFFFFF

/-- Function `CalculateNetwork`: parse address and mask, derive network id, broadcast
and the host range/count with the `/31` and `/32` special cases.  All
`uint32` arithmetic carries its explicit wrap-around. -/
def CalculateNetwork (ipStr maskStr : String) : Except String IPv4Network := do
  let ip ← ParseIPv4 ipStr
  let (mask, bitCount) ← ParseNetmask maskStr
  let networkID := ip &&& mask
  let broadcast := networkID ||| (mask ^^^ 0xFFFFFFFF)
  let (hostMin, hostMax, hostsCount) :=
    if bitCount = 31 then (networkID, broadcast, 2)
    else if bitCount = 32 then (networkID, networkID, 1)
    else ((networkID + 1) % u32, sub32 broadcast 1,
          sub32 ((1 <<< (32 - bitCount)) % u32) 2)
  pure { address := ip, netmask := mask, bitCount := bitCount,
         broadcast := broadcast, networkID := networkID,
         hostMin := hostMin, hostMax := hostMax, hostsCount := hostsCount,
         cls := GetClass ip }

/-! ## `Deaggregate` -/

/-- One probe of `Deaggregate`'s inner prefix search at prefix `p`:
`mask := 0xFFFFFFFF << (32-p)` (uint32 shift), `networkID := start & mask`,
`blockEnd := networkID | ^mask`; the probe succeeds when `blockEnd ≤ end`
and `networkID == start`. -/
def deaggProbe (start e p : Nat) : Bool :=
  let mask := (0xFFFFFFFF <<< (32 - p)) % u32
  let networkID := start &&& mask
  let blockEnd := networkID ||| (mask ^^^ 0xFFFFFFFF)
  decide (¬blockEnd > e) && decide (networkID = start)

/-- The inner `for prefix = 0; prefix < 32; prefix++` search of
`Deaggregate`: the first prefix in `[0,31]` whose probe succeeds, and 32
when none does (the loop falls through with `prefix = 32`).  `j` is the
number of candidates left to try. -/
def deaggFindFrom (start e : Nat) : Nat → Nat → Nat
  | 0, p => p
  | j + 1, p => if deaggProbe start e p then p else deaggFindFrom start e j (p + 1)

/-- The prefix chosen by `Deaggregate` at cursor `start`. -/
def deaggFind (start e : Nat) : Nat := deaggFindFrom start e 32 0

/-- The outer `for start <= end` loop of `Deaggregate`, returning the emitted
blocks as (base, prefix) pairs (the source formats each block as a string the
moment it is emitted; rendering is applied to the collected pairs by
`Deaggregate` below, which is the same list of strings).  The cursor advance
`start += 1 << (32 - prefix)` is `uint32` arithmetic and can wrap; `none`
models fuel exhaustion, and the fuel `e + 1 - start` used by `Deaggregate`
is enough for every terminating execution of the Go loop. -/
def deaggLoop : Nat → Nat → Nat → Option (List (Nat × Nat))
  | 0, start, e => if start ≤ e then none else some []
  | fuel + 1, start, e =>
    if start ≤ e then
      let p := deaggFind start e
      match deaggLoop fuel ((start + (1 <<< (32 - p)) % u32) % u32) e with
      | none => none
      | some rest => some ((start, p) :: rest)
    else some []

/-- Rendering of one emitted block: `fmt.Sprintf("%s/%d", IPToString start, prefix)`. -/
def renderBlock (bp : Nat × Nat) : String := IPToString bp.1 ++ "/" ++ toString bp.2

/-- Function `Deaggregate`: parse both addresses, require `start ≤ end`, and run the
greedy loop.  The outer `none` marks divergence of the Go loop (which the
fuel `e + 1 - start` is sufficient to decide, as proved below). -/
def Deaggregate (startStr endStr : String) : Option (Except String (List String)) :=
  match ParseIPv4 startStr with
  | .error msg => some (.error msg)
  | .ok start =>
    match ParseIPv4 endStr with
    | .error msg => some (.error msg)
    | .ok e =>
      if start > e then
        some (.error "start address must be less than or equal to end address")
      else
        match deaggLoop (e + 1 - start) start e with
        | none => none
        | some blocks => some (.ok (blocks.map renderBlock))

/-! ## `SplitNetwork` -/

/-- The `hostsNeeded` doubling loop of `SplitNetwork`: starting from 4,
double (`uint32`, wrapping) while `hostsNeeded - 2 < uint32(size)`.
`none` models fuel exhaustion; fuel 31 decides every execution (from 4 the
value reaches 0 after 30 doublings, and at 0 the loop condition is
`2^32 - 2 < size`, which only holds for `size = 2^32 - 1`). -/
def hostsLoop : Nat → Nat → Nat → Option Nat
  | 0, _, _ => none
  | fuel + 1, h, size => if sub32 h 2 < size then hostsLoop fuel (h * 2 % u32) size else some h

/-- The size-conversion loop of `SplitNetwork`: each requested size to its
block size (`hostsNeeded`), in order. -/
def hostCountsOf (sizes : List Int) : Option (List Nat) :=
  sizes.mapM (fun size => hostsLoop 31 4 (u32ofInt size))

/-- The prefix computation of the allocation loop:
`prefix := 32; for hostCount > 1 { hostCount >>= 1; prefix-- }`.  The
argument at least halves each iteration and every caller passes a value
below `2^32`, so the fuel of 32 used by `splitAlloc` never runs out. -/
def prefixLoopF : Nat → Nat → Nat → Nat
  | 0, _, p => p
  | fuel + 1, hostCount, p =>
    if hostCount > 1 then prefixLoopF fuel (hostCount >>> 1) (p - 1) else p

/-- The allocation-loop prefix of a block size. -/
def prefixLoop (hostCount p : Nat) : Nat := prefixLoopF 32 hostCount p

/-- The allocation loop of `SplitNetwork`: for each block size, compute the
prefix, run `CalculateNetwork` on the rendered cursor, emit
`networkID/prefix`, and advance the cursor by the block span (`uint32`,
wrapping). -/
def splitAlloc : Nat → List Nat → Except String (List String)
  | _, [] => .ok []
  | currentIP, hostCount :: rest => do
    let pfx := prefixLoop hostCount 32
    let subnetNetwork ← CalculateNetwork (IPToString currentIP) (toString pfx)
    let line := IPToString subnetNetwork.networkID ++ "/" ++ toString pfx
    let tail ← splitAlloc ((currentIP + (1 <<< (32 - pfx)) % u32) % u32) rest
    pure (line :: tail)

/-- The `CapacityExceeded` message of `SplitNetwork`. -/
def capacityMsg (required available : Nat) : String :=
  "requested subnet sizes exceed available space (" ++ toString required ++ " > " ++
    toString available ++ ")"

/-- Function `SplitNetwork`: compute the base network, convert each requested size to
a power-of-two block size, compare the (wrapping) sum with the (truncated)
capacity `uint32(1) << (32 - bitCount)`, then allocate sequentially.  The
outer `none` marks divergence of the `hostsNeeded` loop. -/
def SplitNetwork (networkStr maskStr : String) (sizes : List Int) :
    Option (Except String (List String)) :=
  match CalculateNetwork networkStr maskStr with
  | .error msg => some (.error msg)
  | .ok network =>
    let totalHosts := (1 <<< (32 - network.bitCount)) % u32
    match hostCountsOf sizes with
    | none => none
    | some hostCounts =>
      let totalRequired := hostCounts.foldl (fun acc h => (acc + h) % u32) 0
      if totalRequired > totalHosts then
        some (.error (capacityMsg totalRequired totalHosts))
      else some (splitAlloc network.networkID hostCounts)

/-- The candidate predicate behind `deaggProbe`: the CIDR block of prefix
length `p` starting at `start` is aligned (`start` is a multiple of the block
size) and its last address does not pass `e`. -/
def GoodBlock (start e p : Nat) : Prop :=
  2 ^ (32 - p) ∣ start ∧ start + 2 ^ (32 - p) ≤ e + 1

instance (start e p : Nat) : Decidable (GoodBlock start e p) := by
  unfold GoodBlock; infer_instance

/-- The mathematical greedy cover: at each cursor take the block chosen by
the inner loop and advance past it.  This is the list of blocks the Go loop
emits (see `deaggLoop_eq_greedy`). -/
def greedyBlocks (s e : Nat) : List (Nat × Nat) :=
  if h : s ≤ e then
    (s, deaggFind s e) :: greedyBlocks (s + 2 ^ (32 - deaggFind s e)) e
  else []
termination_by e + 1 - s
decreasing_by
  have := Nat.two_pow_pos (32 - deaggFind s e)
  omega

/-- The emitted blocks tile `[s, e]` exactly, in order and without overlap:
each block starts at the cursor, is aligned to its own size, stays inside the
range, and the final cursor is `e + 1`. -/
def chainCovers (s e : Nat) : List (Nat × Nat) → Prop
  | [] => s = e + 1
  | bp :: rest =>
    bp.1 = s ∧ bp.2 ≤ 32 ∧ 2 ^ (32 - bp.2) ∣ s ∧ s + 2 ^ (32 - bp.2) ≤ e + 1 ∧
      chainCovers (s + 2 ^ (32 - bp.2)) e rest

/-- Greedy maximality of a block list: each emitted block is the largest
aligned block at its base that does not pass `e` (no smaller prefix is good). -/
def greedyMaximal (e : Nat) : List (Nat × Nat) → Prop
  | [] => True
  | bp :: rest => (∀ r, r < bp.2 → ¬GoodBlock bp.1 e r) ∧ greedyMaximal e rest

/-- A list of CIDR blocks all lying inside `[s, e]`, aligned to their own
size, whose union contains every address of `[s, e]`; the comparison class
for minimality ("shortest"). -/
def IsCover (s e : Nat) (C : List (Nat × Nat)) : Prop :=
  (∀ bp ∈ C, bp.2 ≤ 32 ∧ 2 ^ (32 - bp.2) ∣ bp.1 ∧ s ≤ bp.1 ∧
    bp.1 + 2 ^ (32 - bp.2) ≤ e + 1) ∧
  ∀ a, s ≤ a → a ≤ e → ∃ bp ∈ C, bp.1 ≤ a ∧ a < bp.1 + 2 ^ (32 - bp.2)

/-- The character of a decimal digit. -/
def digitChar (d : Nat) : Char := Char.ofNat (48 + d)

/-- The decimal rendering (1 to 3 digits) of an octet value. -/
def digitsOf (n : Nat) : List Char :=
  if n < 10 then [digitChar n]
  else if n < 100 then [digitChar (n / 10), digitChar (n % 10)]
  else [digitChar (n / 100), digitChar (n / 10 % 10), digitChar (n % 10)]

/-- Arithmetic-level mirror of the allocation loop: same cursor arithmetic
as `splitAlloc`, but with the network id computed directly instead of going
through rendering and re-parsing.  `splitAlloc_spec` proves the two agree. -/
def allocBlocks (cursor : Nat) : List Nat → List String
  | [] => []
  | hc :: rest =>
    let p := prefixLoop hc 32
    (IPToString (cursor &&& prefixMask p) ++ "/" ++ toString p) ::
      allocBlocks ((cursor + (1 <<< (32 - p)) % u32) % u32) rest

set_option maxRecDepth 10000


/-! ## Bit-arithmetic facts used throughout -/

theorem u32_eq : u32 = 2 ^ 32 := rfl

/-- Identity `x &&& (2^k - 1) = x % 2^k`. -/
theorem land_two_pow_sub_one (x k : Nat) : x &&& (2 ^ k - 1) = x % 2 ^ k := by
  apply Nat.eq_of_testBit_eq
  intro i
  simp only [Nat.testBit_and, Nat.testBit_two_pow_sub_one, Nat.testBit_mod_two_pow]
  by_cases h : i < k <;> simp [h]

/-- The uint32 mask `0xFFFFFFFF << q` equals `2^32 - 2^q` for `q ≤ 32`. -/
theorem mask_shift_eq {q : Nat} (hq : q ≤ 32) :
    (0xFFFFFFFF <<< q) % u32 = u32 - 2 ^ q := by
  have h0 : (0xFFFFFFFF : Nat) = 2 ^ 32 - 1 := by norm_num
  have h1 : (0xFFFFFFFF : Nat) <<< q = (2 ^ 32 - 1) * 2 ^ q := by
    rw [Nat.shiftLeft_eq, h0]
  have h2 : 2 ^ q ≤ 2 ^ 32 := Nat.pow_le_pow_right (by omega) hq
  have h4 : (1:Nat) ≤ 2 ^ q := Nat.one_le_two_pow
  have e1 : (2 ^ 32 - 1) * 2 ^ q = 2 ^ 32 * 2 ^ q - 2 ^ q := by
    rw [Nat.sub_mul, Nat.one_mul]
  have e2 : 2 ^ 32 * (2 ^ q - 1) = 2 ^ 32 * 2 ^ q - 2 ^ 32 := by
    rw [Nat.mul_comm (2 ^ 32) (2 ^ q - 1), Nat.sub_mul, Nat.one_mul,
      Nat.mul_comm (2 ^ q) (2 ^ 32)]
  have h3 : (2 ^ 32 - 1) * 2 ^ q = 2 ^ 32 * (2 ^ q - 1) + (2 ^ 32 - 2 ^ q) := by
    have h5 : 2 ^ 32 ≤ 2 ^ 32 * 2 ^ q := Nat.le_mul_of_pos_right _ (by omega)
    omega
  rw [u32_eq, h1, h3, Nat.mul_add_mod]
  exact Nat.mod_eq_of_lt (by omega)

/-- Bits of the prefix mask `2^32 - 2^q`: set exactly in positions `q ≤ i < 32`. -/
theorem testBit_himask {q : Nat} (hq : q ≤ 32) (i : Nat) :
    (u32 - 2 ^ q).testBit i = (decide (q ≤ i) && decide (i < 32)) := by
  have h2 : 2 ^ q ≤ 2 ^ 32 := Nat.pow_le_pow_right (by omega) hq
  have h3 : u32 - 2 ^ q = 2 ^ q * (2 ^ (32 - q) - 1) + 0 := by
    rw [u32_eq, Nat.mul_sub_one]
    have e : 2 ^ q * 2 ^ (32 - q) = 2 ^ 32 := by
      rw [← Nat.pow_add]; congr 1; omega
    omega
  rw [h3, Nat.testBit_mul_pow_two_add _ (Nat.two_pow_pos q) i]
  by_cases h : i < q
  · simp [h, Nat.zero_testBit, show ¬q ≤ i by omega]
  · simp only [h, if_false, Nat.testBit_two_pow_sub_one]
    have e : (i - q < 32 - q) = (i < 32) := by
      apply propext; omega
    simp [Nat.not_lt.mp h, e]

/-- Computing `s &&& (2^32 - 2^q)`: clearing the low `q` bits of `s < 2^32`. -/
theorem land_himask {s q : Nat} (hs : s < u32) (hq : q ≤ 32) :
    s &&& (u32 - 2 ^ q) = s - s % 2 ^ q := by
  have hdm := Nat.div_add_mod s (2 ^ q)
  have hsub : s - s % 2 ^ q = 2 ^ q * (s / 2 ^ q) + 0 := by omega
  apply Nat.eq_of_testBit_eq
  intro i
  rw [Nat.testBit_and, testBit_himask hq i, hsub,
    Nat.testBit_mul_pow_two_add _ (Nat.two_pow_pos q) i]
  by_cases h : i < q
  · simp [h, Nat.zero_testBit, show ¬q ≤ i by omega]
  · simp only [h, if_false]
    by_cases h32 : i < 32
    · have e : q + (i - q) = i := by omega
      rw [← Nat.shiftRight_eq_div_pow, Nat.testBit_shiftRight, e]
      simp [Nat.not_lt.mp h, h32]
    · have h1 : s.testBit i = false :=
        Nat.testBit_lt_two_pow (lt_of_lt_of_le (u32_eq ▸ hs)
          (Nat.pow_le_pow_right (by omega) (by omega)))
      have hb : (s / 2 ^ q).testBit (i - q) = false := by
        apply Nat.testBit_lt_two_pow
        have hq2 : s / 2 ^ q < 2 ^ (32 - q) := by
          rw [Nat.div_lt_iff_lt_mul (Nat.two_pow_pos q)]
          calc s < 2 ^ 32 := u32_eq ▸ hs
            _ = 2 ^ (32 - q) * 2 ^ q := by rw [← Nat.pow_add]; congr 1; omega
        exact lt_of_lt_of_le hq2 (Nat.pow_le_pow_right (by omega) (by omega))
      simp [h1, hb, h32]

/-- Complementing the prefix mask within 32 bits gives the low mask `2^q - 1`. -/
theorem himask_xor_ones {q : Nat} (hq : q ≤ 32) :
    (u32 - 2 ^ q) ^^^ 0xFFFFFFFF = 2 ^ q - 1 := by
  apply Nat.eq_of_testBit_eq
  intro i
  have h : (0xFFFFFFFF : Nat) = 2 ^ 32 - 1 := by norm_num
  rw [Nat.testBit_xor, testBit_himask hq i, h, Nat.testBit_two_pow_sub_one,
    Nat.testBit_two_pow_sub_one]
  by_cases h1 : i < 32 <;> by_cases h2 : q ≤ i <;>
    simp [h1, h2] <;> omega

/-- Setting the low `q` bits of a `2^q`-aligned value is addition. -/
theorem aligned_lor_low {x q : Nat} (hx : 2 ^ q ∣ x) :
    x ||| (2 ^ q - 1) = x + (2 ^ q - 1) := by
  obtain ⟨m, rfl⟩ := hx
  rw [← Nat.mul_add_lt_is_or (by exact Nat.sub_lt (Nat.two_pow_pos q) Nat.one_pos) m]

/-- Identity `x &&& (2^q - 1) = 0` for `2^q`-aligned `x`; with `aligned_lor_low` this
is the disjointness used to split network id and host part. -/
theorem aligned_land_low {x q : Nat} (hx : 2 ^ q ∣ x) :
    x &&& (2 ^ q - 1) = 0 := by
  obtain ⟨m, rfl⟩ := hx
  rw [land_two_pow_sub_one, Nat.mul_mod_right]

/-! ## Analysis of `Deaggregate` -/

/-- The probe of the inner loop tests exactly `GoodBlock` (for `p ≤ 31` and a
32-bit cursor). -/
theorem deaggProbe_iff {s e p : Nat} (hs : s < u32) (hp : p ≤ 31) :
    deaggProbe s e p = true ↔ GoodBlock s e p := by
  have hq : 32 - p ≤ 32 := by omega
  have hmod := Nat.div_add_mod s (2 ^ (32 - p))
  have hmlt : s % 2 ^ (32 - p) < 2 ^ (32 - p) := Nat.mod_lt _ (Nat.two_pow_pos _)
  have hdvd : 2 ^ (32 - p) ∣ s - s % 2 ^ (32 - p) := ⟨s / 2 ^ (32 - p), by omega⟩
  simp only [deaggProbe]
  rw [mask_shift_eq hq, land_himask hs hq, himask_xor_ones hq, aligned_lor_low hdvd]
  rw [Bool.and_eq_true, decide_eq_true_eq, decide_eq_true_eq]
  unfold GoodBlock
  constructor
  · rintro ⟨hle, heq⟩
    have hz : s % 2 ^ (32 - p) = 0 := by omega
    exact ⟨Nat.dvd_iff_mod_eq_zero.mpr hz, by omega⟩
  · rintro ⟨hd, hle⟩
    have hz : s % 2 ^ (32 - p) = 0 := Nat.dvd_iff_mod_eq_zero.mp hd
    exact ⟨by omega, by omega⟩

/-- The inner scan returns the first prefix (smallest `p`, i.e. largest
block) satisfying `GoodBlock`, or 32; `GoodBlock` always holds at the result
when `start ≤ e`. -/
theorem deaggFindFrom_spec {s e : Nat} (hs : s < u32) (hse : s ≤ e) :
    ∀ j p, j + p = 32 → (∀ r, r < p → ¬GoodBlock s e r) →
      deaggFindFrom s e j p ≤ 32 ∧ GoodBlock s e (deaggFindFrom s e j p) ∧
        ∀ r, r < deaggFindFrom s e j p → ¬GoodBlock s e r := by
  intro j
  induction j with
  | zero =>
    intro p hp hmin
    have hp32 : p = 32 := by omega
    subst hp32
    have hred : deaggFindFrom s e 0 32 = 32 := rfl
    rw [hred]
    have hone : (2:Nat) ^ (32 - 32) = 1 := by norm_num
    exact ⟨le_refl _, ⟨hone ▸ Nat.one_dvd s, by omega⟩, hmin⟩
  | succ j ih =>
    intro p hp hmin
    unfold deaggFindFrom
    by_cases hpr : deaggProbe s e p = true
    · have hg := (deaggProbe_iff hs (by omega)).mp hpr
      simp only [hpr, if_true]
      exact ⟨by omega, hg, hmin⟩
    · simp only [hpr, if_false]
      refine ih (p + 1) (by omega) ?_
      intro r hr
      rcases Nat.lt_or_ge r p with h | h
      · exact hmin r h
      · have : r = p := by omega
        subst this
        intro hg
        exact hpr ((deaggProbe_iff hs (by omega)).mpr hg)

/-- Characterisation of the prefix chosen by `Deaggregate`'s inner loop:
it is good, and it is the smallest such prefix (the largest aligned block
that does not pass `e`). -/
theorem deaggFind_spec {s e : Nat} (hs : s < u32) (hse : s ≤ e) :
    deaggFind s e ≤ 32 ∧ GoodBlock s e (deaggFind s e) ∧
      ∀ r, r < deaggFind s e → ¬GoodBlock s e r :=
  deaggFindFrom_spec hs hse 32 0 rfl (by omega)

/-- When `e` is not the maximal address the chosen prefix is at least 1
(the whole-space block cannot fit). -/
theorem deaggFind_pos {s e : Nat} (hs : s < u32) (hse : s ≤ e) (he : e < u32 - 1) :
    1 ≤ deaggFind s e := by
  by_contra h
  have h0 : deaggFind s e = 0 := by omega
  have hg := (deaggFind_spec hs hse).2.1
  rw [h0] at hg
  have := hg.2
  simp only [Nat.sub_zero] at this
  rw [u32_eq] at he
  omega

/-- With `e = 2^32 - 1` the loop never exits: every 32-bit cursor value
satisfies `start ≤ e`, so each iteration recurses and any fuel runs out. -/
theorem deaggLoop_none_of_max : ∀ fuel s, s < u32 → deaggLoop fuel s (u32 - 1) = none := by
  intro fuel
  induction fuel with
  | zero =>
    intro s hs
    unfold deaggLoop
    simp [show s ≤ u32 - 1 by omega]
  | succ fuel ih =>
    intro s hs
    unfold deaggLoop
    simp only [show (s ≤ u32 - 1) = True by simp [show s ≤ u32 - 1 by omega], if_true]
    rw [ih _ (Nat.mod_lt _ (by norm_num [u32]))]

/-- Fuel adequacy: for `e` below the maximal address, fuel `e + 1 - start`
(and hence any larger fuel) makes the Go loop terminate, and it emits
exactly the greedy blocks. -/
theorem deaggLoop_eq_greedy {e : Nat} (he : e < u32 - 1) :
    ∀ fuel s, s < u32 → e + 1 - s ≤ fuel →
      deaggLoop fuel s e = some (greedyBlocks s e) := by
  intro fuel
  induction fuel with
  | zero =>
    intro s hs hf
    have h : ¬s ≤ e := by omega
    unfold deaggLoop greedyBlocks
    simp [h]
  | succ fuel ih =>
    intro s hs hf
    by_cases h : s ≤ e
    · have hspec := deaggFind_spec hs h
      have hp1 : 1 ≤ deaggFind s e := deaggFind_pos hs h he
      have hq : 32 - deaggFind s e ≤ 31 := by omega
      have hpow : 2 ^ (32 - deaggFind s e) < u32 := by
        rw [u32_eq]; exact Nat.pow_lt_pow_right (by omega) (by omega)
      have hshift : (1 <<< (32 - deaggFind s e)) % u32 = 2 ^ (32 - deaggFind s e) := by
        rw [Nat.one_shiftLeft]; exact Nat.mod_eq_of_lt hpow
      have hfit : s + 2 ^ (32 - deaggFind s e) ≤ e + 1 := hspec.2.1.2
      have hmod : (s + (1 <<< (32 - deaggFind s e)) % u32) % u32 =
          s + 2 ^ (32 - deaggFind s e) := by
        rw [hshift]; exact Nat.mod_eq_of_lt (by omega)
      unfold deaggLoop
      simp only [h, if_true]
      rw [hmod, ih (s + 2 ^ (32 - deaggFind s e)) (by omega)
        (by have := Nat.two_pow_pos (32 - deaggFind s e); omega)]
      conv_rhs => rw [greedyBlocks]
      simp [h]
    · unfold deaggLoop greedyBlocks
      simp [h]

/-! ## Correctness of the greedy cover -/

theorem greedyBlocks_pos {s e : Nat} (h : s ≤ e) :
    greedyBlocks s e =
      (s, deaggFind s e) :: greedyBlocks (s + 2 ^ (32 - deaggFind s e)) e := by
  rw [greedyBlocks]
  simp [h]

theorem greedyBlocks_neg {s e : Nat} (h : ¬s ≤ e) : greedyBlocks s e = [] := by
  rw [greedyBlocks]
  simp [h]

/-- The greedy loop emits a perfect tiling of `[s, e]`. -/
theorem greedyBlocks_chain {e : Nat} (he : e < u32 - 1) :
    ∀ n s, e + 1 - s ≤ n → s < u32 → s ≤ e + 1 → chainCovers s e (greedyBlocks s e) := by
  intro n
  induction n with
  | zero =>
    intro s hn hs hse
    have h : ¬s ≤ e := by omega
    rw [greedyBlocks_neg h]
    show s = e + 1
    omega
  | succ n ih =>
    intro s hn hs hse
    by_cases h : s ≤ e
    · have hspec := deaggFind_spec hs h
      have hgood := hspec.2.1
      have hfit := hgood.2
      have hpos := Nat.two_pow_pos (32 - deaggFind s e)
      rw [greedyBlocks_pos h]
      refine ⟨rfl, hspec.1, hgood.1, hgood.2, ?_⟩
      show chainCovers (s + 2 ^ (32 - deaggFind s e)) e
        (greedyBlocks (s + 2 ^ (32 - deaggFind s e)) e)
      exact ih _ (by omega) (by omega) (by omega)
    · rw [greedyBlocks_neg h]
      show s = e + 1
      omega

/-- The greedy loop picks maximal blocks. -/
theorem greedyBlocks_maximal {e : Nat} (he : e < u32 - 1) :
    ∀ n s, e + 1 - s ≤ n → s < u32 → greedyMaximal e (greedyBlocks s e) := by
  intro n
  induction n with
  | zero =>
    intro s hn hs
    by_cases h : s ≤ e
    · omega
    · rw [greedyBlocks_neg h]; trivial
  | succ n ih =>
    intro s hn hs
    by_cases h : s ≤ e
    · have hspec := deaggFind_spec hs h
      have hgood := hspec.2.1
      have hfit := hgood.2
      have hpos := Nat.two_pow_pos (32 - deaggFind s e)
      rw [greedyBlocks_pos h]
      refine ⟨hspec.2.2, ?_⟩
      show greedyMaximal e (greedyBlocks (s + 2 ^ (32 - deaggFind s e)) e)
      exact ih _ (by omega) (by omega)
    · rw [greedyBlocks_neg h]; trivial

/-- A tiling covers precisely the addresses of `[s, e]` ("union is exactly
the range, no gaps"). -/
theorem chainCovers_union {e : Nat} :
    ∀ bs s, chainCovers s e bs →
      ∀ a, (s ≤ a ∧ a ≤ e) ↔ ∃ bp ∈ bs, bp.1 ≤ a ∧ a < bp.1 + 2 ^ (32 - bp.2) := by
  intro bs
  induction bs with
  | nil =>
    intro s hc a
    have : s = e + 1 := hc
    simp only [List.not_mem_nil, false_and, exists_false, iff_false]
    omega
  | cons bp rest ih =>
    intro s hc a
    obtain ⟨hb, hp, hdvd, hfit, hrest⟩ := hc
    constructor
    · rintro ⟨ha1, ha2⟩
      by_cases hin : a < s + 2 ^ (32 - bp.2)
      · exact ⟨bp, List.mem_cons_self _ _, by omega, by omega⟩
      · have := ((ih _ hrest a).mp ⟨by omega, ha2⟩)
        obtain ⟨bq, hbq, h1, h2⟩ := this
        exact ⟨bq, List.mem_cons_of_mem _ hbq, h1, h2⟩
    · rintro ⟨bq, hbq, h1, h2⟩
      rcases List.mem_cons.mp hbq with rfl | hbq
      · omega
      · have := ((ih _ hrest a).mpr ⟨bq, hbq, h1, h2⟩)
        have hpos := Nat.two_pow_pos (32 - bp.2)
        omega

/-- Every block of a tiling starts at or after the cursor. -/
theorem chainCovers_lb {e : Nat} :
    ∀ bs s, chainCovers s e bs → ∀ bp ∈ bs, s ≤ bp.1 := by
  intro bs
  induction bs with
  | nil => intro s _ bp h; cases h
  | cons bq rest ih =>
    intro s hc bp hm
    obtain ⟨hb, hp, hdvd, hfit, hrest⟩ := hc
    have hpos := Nat.two_pow_pos (32 - bq.2)
    rcases List.mem_cons.mp hm with rfl | hm
    · omega
    · have := ih _ hrest bp hm
      omega

/-- Blocks of a tiling are pairwise ordered and disjoint: each block ends
before the next one starts ("ordered, no overlaps"). -/
theorem chainCovers_pairwise {e : Nat} :
    ∀ bs s, chainCovers s e bs →
      bs.Pairwise (fun x y => x.1 + 2 ^ (32 - x.2) ≤ y.1) := by
  intro bs
  induction bs with
  | nil => intro s _; exact List.Pairwise.nil
  | cons bp rest ih =>
    intro s hc
    obtain ⟨hb, hp, hdvd, hfit, hrest⟩ := hc
    refine List.Pairwise.cons ?_ (ih _ hrest)
    intro bq hbq
    have := chainCovers_lb rest _ hrest bq hbq
    omega

/-! ## Minimality of the greedy cover -/

/-- Between two multiples of a positive `d` there is room for a whole `d`. -/
theorem dvd_add_le {d x y : Nat} (hd : 0 < d) (hx : d ∣ x) (hy : d ∣ y)
    (hxy : x < y) : x + d ≤ y := by
  obtain ⟨k, rfl⟩ := hx
  obtain ⟨l, rfl⟩ := hy
  have : k < l := by
    by_contra hkl
    exact absurd (Nat.mul_le_mul_left d (Nat.not_lt.mp hkl)) (by omega)
  calc d * k + d = d * (k + 1) := by ring
    _ ≤ d * l := Nat.mul_le_mul_left d (by omega)

/-- Among the members of a list satisfying `P` there is one maximising `f`. -/
theorem exists_max_of_mem {α : Type} (P : α → Prop) (f : α → Nat) :
    ∀ C : List α, (∃ x ∈ C, P x) →
      ∃ x ∈ C, P x ∧ ∀ y ∈ C, P y → f y ≤ f x := by
  intro C
  induction C with
  | nil => rintro ⟨x, hx, _⟩; cases hx
  | cons a t ih =>
    rintro ⟨x, hx, hPx⟩
    by_cases ht : ∃ y ∈ t, P y
    · obtain ⟨m, hm, hPm, hmax⟩ := ih ht
      by_cases hPa : P a
      · by_cases hfa : f a ≤ f m
        · refine ⟨m, List.mem_cons_of_mem _ hm, hPm, ?_⟩
          intro y hy hPy
          rcases List.mem_cons.mp hy with rfl | hy
          · exact hfa
          · exact hmax y hy hPy
        · refine ⟨a, List.mem_cons_self _ _, hPa, ?_⟩
          intro y hy hPy
          rcases List.mem_cons.mp hy with rfl | hy
          · exact le_refl _
          · exact le_trans (hmax y hy hPy) (by omega)
      · refine ⟨m, List.mem_cons_of_mem _ hm, hPm, ?_⟩
        intro y hy hPy
        rcases List.mem_cons.mp hy with rfl | hy
        · exact absurd hPy hPa
        · exact hmax y hy hPy
    · rcases List.mem_cons.mp hx with rfl | hx
      · refine ⟨x, List.mem_cons_self _ _, hPx, ?_⟩
        intro y hy hPy
        rcases List.mem_cons.mp hy with rfl | hy
        · exact le_refl _
        · exact absurd ⟨y, hy, hPy⟩ ht
      · exact absurd ⟨x, hx, hPx⟩ ht

/-- Filtering away at least one element strictly shortens a list. -/
theorem length_filter_lt {α : Type} (p : α → Bool) :
    ∀ (C : List α) (x : α), x ∈ C → p x = false →
      (C.filter p).length < C.length := by
  intro C
  induction C with
  | nil => intro x hx _; cases hx
  | cons a t ih =>
    intro x hx hpx
    have hle := List.length_filter_le p t
    rcases List.mem_cons.mp hx with rfl | hx
    · rw [List.filter_cons, hpx, if_neg Bool.false_ne_true]
      simp only [List.length_cons]
      omega
    · by_cases hpa : p a = true
      · rw [List.filter_cons, hpa, if_pos rfl]
        have := ih x hx hpx
        simp only [List.length_cons]
        omega
      · have hpa2 : p a = false := by revert hpa; cases p a <;> simp
        rw [List.filter_cons, hpa2, if_neg Bool.false_ne_true]
        have := ih x hx hpx
        simp only [List.length_cons]
        omega

/-- Dyadic through-lemma: starting strictly inside an aligned block of size
`g = 2^(32 - P)` whose end fits in the range, the greedy tiling from `x`
is at least as long as the one from the block's end `s + g`. -/
theorem greedy_through {e : Nat} (he : e < u32 - 1) {s : Nat} {P : Nat} (hP : P ≤ 32)
    (hdvd : 2 ^ (32 - P) ∣ s) (hfit : s + 2 ^ (32 - P) ≤ e + 1) (hs : s < u32) :
    ∀ m x, s + 2 ^ (32 - P) - x ≤ m → s < x → x ≤ s + 2 ^ (32 - P) →
      (greedyBlocks (s + 2 ^ (32 - P)) e).length ≤ (greedyBlocks x e).length := by
  intro m
  induction m with
  | zero =>
    intro x hm hx1 hx2
    have : x = s + 2 ^ (32 - P) := by omega
    subst this
    exact le_refl _
  | succ m ih =>
    intro x hm hx1 hx2
    by_cases hxe : x = s + 2 ^ (32 - P)
    · subst hxe; exact le_refl _
    · have hxlt : x < s + 2 ^ (32 - P) := by omega
      have hxle : x ≤ e := by omega
      have hxu : x < u32 := by omega
      have hspec := deaggFind_spec hxu hxle
      set px := deaggFind x e with hpx
      have hgx : GoodBlock x e px := hspec.2.1
      have hfitx := hgx.2
      have hdx : 2 ^ (32 - px) ∣ x := hgx.1
      -- the greedy block at x cannot outgrow the enclosing aligned block
      have hsmall : 2 ^ (32 - px) < 2 ^ (32 - P) := by
        rcases Nat.lt_or_ge (2 ^ (32 - px)) (2 ^ (32 - P)) with h | h
        · exact h
        · exfalso
          have hdvd2 : 2 ^ (32 - P) ∣ 2 ^ (32 - px) :=
            pow_dvd_pow 2 (Nat.pow_le_pow_iff_right (by omega) |>.mp h)
          have h1 : 2 ^ (32 - P) ∣ x := dvd_trans hdvd2 hdx
          have h2 := dvd_add_le (Nat.two_pow_pos _) hdvd h1 hx1
          omega
      have hdvdg : 2 ^ (32 - px) ∣ 2 ^ (32 - P) :=
        pow_dvd_pow 2 (Nat.pow_le_pow_iff_right (by omega) |>.mp (le_of_lt hsmall))
      have hdvds : 2 ^ (32 - px) ∣ s + 2 ^ (32 - P) :=
        Nat.dvd_add (dvd_trans hdvdg hdvd) hdvdg
      have hnext : x + 2 ^ (32 - px) ≤ s + 2 ^ (32 - P) :=
        dvd_add_le (Nat.two_pow_pos _) hdx hdvds hxlt
      have hpow := Nat.two_pow_pos (32 - px)
      rw [greedyBlocks_pos hxle, ← hpx]
      simp only [List.length_cons]
      have hrec := ih (x + 2 ^ (32 - px)) (by omega) (by omega) hnext
      omega

/-- Minimality of the greedy tiling: no list of aligned CIDR blocks lying
inside `[s, e]` whose union contains `[s, e]` is shorter than the greedy
one ("shortest"). -/
theorem greedyBlocks_minimal {e : Nat} (he : e < u32 - 1) :
    ∀ n s, e + 1 - s ≤ n → s < u32 → ∀ C, IsCover s e C →
      (greedyBlocks s e).length ≤ C.length := by
  intro n
  induction n with
  | zero =>
    intro s hn hs C _
    rw [greedyBlocks_neg (by omega)]
    simp
  | succ n ih =>
    intro s hn hs C hC
    by_cases hse : s ≤ e
    · -- some block of the cover contains s; it must start at s
      obtain ⟨bp, hbp, hb1, hb2⟩ := hC.2 s (le_refl s) hse
      have hbase : bp.1 = s := le_antisymm hb1 (hC.1 bp hbp).2.2.1
      -- choose a block at s of maximal size
      obtain ⟨bm, hbm, ⟨hbmS, _⟩, hbmax⟩ :=
        exists_max_of_mem (fun x => x.1 = s ∧ x ∈ C) (fun x => 2 ^ (32 - x.2)) C
          ⟨bp, hbp, hbase, hbp⟩
      obtain ⟨hm32, hmdvd, _, hmfit⟩ := hC.1 bm hbm
      rw [hbmS] at hmdvd hmfit
      have hτpos := Nat.two_pow_pos (32 - bm.2)
      -- the greedy block at s is at least as large
      have hspec := deaggFind_spec hs hse
      have hgfit := hspec.2.1.2
      have hgdvd := hspec.2.1.1
      have hτg : 2 ^ (32 - bm.2) ≤ 2 ^ (32 - deaggFind s e) := by
        have hge : deaggFind s e ≤ bm.2 := by
          by_contra hlt
          exact hspec.2.2 bm.2 (by omega) ⟨hmdvd, hmfit⟩
        exact Nat.pow_le_pow_right (by omega) (by omega)
      -- blocks starting inside [s, s + τ) stay inside it
      have hinside : ∀ bq ∈ C, bq.1 < s + 2 ^ (32 - bm.2) →
          bq.1 + 2 ^ (32 - bq.2) ≤ s + 2 ^ (32 - bm.2) := by
        intro bq hbq hlt
        obtain ⟨hq32, hqdvd, hqlb, hqfit⟩ := hC.1 bq hbq
        by_cases hqs : bq.1 = s
        · have := hbmax bq hbq ⟨hqs, hbq⟩
          omega
        · have hslt : s < bq.1 := by omega
          rcases Nat.lt_or_ge (2 ^ (32 - bm.2)) (2 ^ (32 - bq.2)) with hlt2 | hle2
          · exfalso
            have hdvd2 : 2 ^ (32 - bm.2) ∣ 2 ^ (32 - bq.2) :=
              pow_dvd_pow 2 (Nat.pow_le_pow_iff_right (by omega) |>.mp (le_of_lt hlt2))
            have h1 : 2 ^ (32 - bm.2) ∣ bq.1 := dvd_trans hdvd2 hqdvd
            have h2 := dvd_add_le hτpos hmdvd h1 hslt
            omega
          · have hdvd2 : 2 ^ (32 - bq.2) ∣ 2 ^ (32 - bm.2) :=
              pow_dvd_pow 2 (Nat.pow_le_pow_iff_right (by omega) |>.mp hle2)
            have hdvds : 2 ^ (32 - bq.2) ∣ s + 2 ^ (32 - bm.2) :=
              Nat.dvd_add (dvd_trans hdvd2 hmdvd) hdvd2
            exact dvd_add_le (Nat.two_pow_pos _) hqdvd hdvds hlt
      -- split the cover at s + τ
      set τ := 2 ^ (32 - bm.2) with hτ
      set C2 := C.filter (fun bq => decide (s + τ ≤ bq.1)) with hC2
      have hlen : C2.length < C.length := by
        apply length_filter_lt _ C bm hbm
        rw [decide_eq_false_iff_not]
        omega
      rw [greedyBlocks_pos hse]
      simp only [List.length_cons]
      by_cases hend : s + τ ≤ e
      · -- the filtered list covers the rest of the range
        have hC2cov : IsCover (s + τ) e C2 := by
          constructor
          · intro bq hbq
            have hmem := List.mem_filter.mp hbq
            have hq := hC.1 bq hmem.1
            have hqle := of_decide_eq_true hmem.2
            exact ⟨hq.1, hq.2.1, by omega, hq.2.2.2⟩
          · intro a ha1 ha2
            obtain ⟨bq, hbq, h1, h2⟩ := hC.2 a (by omega) ha2
            refine ⟨bq, List.mem_filter.mpr ⟨hbq, decide_eq_true ?_⟩, h1, h2⟩
            by_contra hqlt
            have := hinside bq hbq (by omega)
            omega
        have hrec := ih (s + τ) (by omega) (by omega) C2 hC2cov
        have hthrough := greedy_through he hspec.1 hgdvd hgfit hs
          (s + 2 ^ (32 - deaggFind s e)) (s + τ) (by omega) (by omega) (by omega)
        show (greedyBlocks (s + 2 ^ (32 - deaggFind s e)) e).length + 1 ≤ C.length
        omega
      · -- the maximal block reaches e: the greedy answer is a single block
        have hτe : s + τ = e + 1 := by omega
        have hgle : s + 2 ^ (32 - deaggFind s e) ≤ e + 1 := hgfit
        have hgeq : s + 2 ^ (32 - deaggFind s e) = e + 1 := by omega
        rw [hgeq, greedyBlocks_neg (by omega)]
        simp only [List.length_nil]
        have : 1 ≤ C.length := by
          cases C with
          | nil => cases hbm
          | cons _ _ => simp
        omega
    · rw [greedyBlocks_neg hse]
      simp

/-! ## Round-trip: parsing a rendered address -/



/-- Rendering an octet value with `Nat.repr` is its 1-to-3-digit decimal rendering. -/
theorem repr_octet : ∀ n, n < 256 → (Nat.repr n).data = digitsOf n := by decide

/-- Digit characters are digits with the right value and are not separators. -/
theorem digitChar_facts : ∀ d, d < 10 → (isDig (digitChar d) = true ∧
    digVal (digitChar d) = d ∧
    (digitChar d = '.' ∨ digitChar d = ':' ∨ digitChar d = '%') = False) := by decide

/-- Parsing a rendered prefix length with `strconv.Atoi`. -/
theorem goAtoi_repr : ∀ p, p < 33 → goAtoi (Nat.repr p).data = some (p : Int) := by decide

theorem digitsOf_ne_nil {n : Nat} : digitsOf n ≠ [] := by
  unfold digitsOf
  split
  · simp
  · split <;> simp

/-- The octet extraction `x &&& 255` is `x % 256`. -/
theorem land_255 (x : Nat) : x &&& 255 = x % 256 := by
  have h : (255 : Nat) = 2 ^ 8 - 1 := by norm_num
  rw [h, land_two_pow_sub_one]
  norm_num

theorem octet_lt (x : Nat) : x &&& 255 < 256 := by
  rw [land_255]
  exact Nat.mod_lt _ (by norm_num)

/-- One digit step of the netip IPv4 field machine. -/
theorem v4Go_digit {c : Char} (hc : isDig c = true) (rest : List Char)
    {pos val digLen : Nat} (fields : List Nat) (hnz : ¬(digLen = 1 ∧ val = 0))
    (hv : val * 10 + digVal c ≤ 255) :
    v4Go (c :: rest) pos val digLen fields =
      v4Go rest pos (val * 10 + digVal c) (digLen + 1) fields := by
  have h1 : (decide (digLen = 1) && decide (val = 0)) = false := by
    rcases eq_or_ne digLen 1 with h | h
    · rcases eq_or_ne val 0 with h2 | h2
      · exact absurd ⟨h, h2⟩ hnz
      · simp [h2]
    · simp [h]
  conv_lhs => rw [v4Go]
  rw [hc]
  simp only [if_true]
  rw [h1]
  simp only [Bool.false_eq_true, if_false]
  rw [if_neg (by omega)]

/-- Consuming a full rendered octet from a fresh field state. -/
theorem v4Go_digits {n : Nat} (hn : n ≤ 255) (rest : List Char) (pos : Nat)
    (fields : List Nat) :
    ∃ dl, 1 ≤ dl ∧
      v4Go (digitsOf n ++ rest) pos 0 0 fields = v4Go rest pos n dl fields := by
  unfold digitsOf
  by_cases h1 : n < 10
  · refine ⟨1, by omega, ?_⟩
    simp only [h1, if_true, List.cons_append, List.nil_append]
    obtain ⟨hd, hv, _⟩ := digitChar_facts n h1
    rw [v4Go_digit hd _ fields (by omega) (by rw [hv]; omega), hv]
    have e0 : 0 * 10 + n = n := by omega
    rw [e0]
  · by_cases h2 : n < 100
    · refine ⟨2, by omega, ?_⟩
      simp only [h1, h2, if_true, if_false, List.cons_append, List.nil_append]
      obtain ⟨hd1, hv1, _⟩ := digitChar_facts (n / 10) (by omega)
      obtain ⟨hd2, hv2, _⟩ := digitChar_facts (n % 10) (by omega)
      rw [v4Go_digit hd1 _ fields (by omega) (by rw [hv1]; omega), hv1]
      rw [v4Go_digit hd2 _ fields (by omega) (by rw [hv2]; omega), hv2]
      have e : (0 * 10 + n / 10) * 10 + n % 10 = n := by omega
      rw [e]
    · refine ⟨3, by omega, ?_⟩
      simp only [h1, h2, if_false, List.cons_append, List.nil_append]
      obtain ⟨hd1, hv1, _⟩ := digitChar_facts (n / 100) (by omega)
      obtain ⟨hd2, hv2, _⟩ := digitChar_facts (n / 10 % 10) (by omega)
      obtain ⟨hd3, hv3, _⟩ := digitChar_facts (n % 10) (by omega)
      rw [v4Go_digit hd1 _ fields (by omega) (by rw [hv1]; omega), hv1]
      rw [v4Go_digit hd2 _ fields (by omega) (by rw [hv2]; omega), hv2]
      have e1 : (0 * 10 + n / 100) * 10 + n / 10 % 10 = n / 10 := by omega
      rw [e1, v4Go_digit hd3 _ fields (by omega) (by rw [hv3]; omega), hv3]
      have e2 : n / 10 * 10 + n % 10 = n := by omega
      rw [e2]

/-- The dot step of the netip IPv4 field machine. -/
theorem v4Go_dot (rest : List Char) {pos digLen : Nat} (val : Nat)
    (fields : List Nat) (hd : 1 ≤ digLen) (hr : rest ≠ []) (hp : pos < 3) :
    v4Go ('.' :: rest) pos val digLen fields =
      v4Go rest (pos + 1) 0 0 (fields ++ [val]) := by
  have hdig : isDig '.' = false := rfl
  have h1 : (decide (digLen = 0) || rest.isEmpty) = false := by
    have hre : rest.isEmpty = false := by
      cases rest with
      | nil => exact absurd rfl hr
      | cons _ _ => rfl
    rw [hre]
    simp only [Bool.or_false, decide_eq_false_iff_not]
    omega
  conv_lhs => rw [v4Go]
  rw [hdig, h1]
  simp only [Bool.false_eq_true, if_false, if_pos rfl]
  rw [if_neg (show ¬pos = 3 from by omega)]
  simp

/-- The netip IPv4 parser accepts a rendered dotted-quad and returns its
four octets. -/
theorem parseV4Go_render {o1 o2 o3 o4 : Nat} (h1 : o1 ≤ 255) (h2 : o2 ≤ 255)
    (h3 : o3 ≤ 255) (h4 : o4 ≤ 255) :
    parseV4Go (digitsOf o1 ++ '.' :: (digitsOf o2 ++ '.' ::
      (digitsOf o3 ++ '.' :: digitsOf o4))) = some [o1, o2, o3, o4] := by
  unfold parseV4Go
  obtain ⟨d1, hd1, e1⟩ := v4Go_digits h1
    ('.' :: (digitsOf o2 ++ '.' :: (digitsOf o3 ++ '.' :: digitsOf o4))) 0 []
  rw [e1, v4Go_dot _ _ [] hd1 (by simp [digitsOf_ne_nil]) (by omega)]
  show v4Go (digitsOf o2 ++ '.' :: (digitsOf o3 ++ '.' :: digitsOf o4)) 1 0 0 [o1] =
    some [o1, o2, o3, o4]
  obtain ⟨d2, hd2, e2⟩ := v4Go_digits h2
    ('.' :: (digitsOf o3 ++ '.' :: digitsOf o4)) 1 [o1]
  rw [e2, v4Go_dot _ _ [o1] hd2 (by simp [digitsOf_ne_nil]) (by omega)]
  show v4Go (digitsOf o3 ++ '.' :: digitsOf o4) 2 0 0 [o1, o2] = some [o1, o2, o3, o4]
  obtain ⟨d3, hd3, e3⟩ := v4Go_digits h3 ('.' :: digitsOf o4) 2 [o1, o2]
  rw [e3, v4Go_dot _ _ [o1, o2] hd3 digitsOf_ne_nil (by omega)]
  show v4Go (digitsOf o4) 3 0 0 [o1, o2, o3] = some [o1, o2, o3, o4]
  obtain ⟨d4, hd4, e4⟩ := v4Go_digits h4 [] 3 [o1, o2, o3]
  rw [List.append_nil] at e4
  rw [e4]
  rfl

/-- Character-list decomposition of a rendered address. -/
theorem IPToString_data (ip : Nat) :
    (IPToString ip).data =
      digitsOf ((ip >>> 24) &&& 255) ++ '.' :: (digitsOf ((ip >>> 16) &&& 255) ++
        '.' :: (digitsOf ((ip >>> 8) &&& 255) ++ '.' :: digitsOf (ip &&& 255))) := by
  unfold IPToString
  have hd : ∀ x : Nat, x &&& 255 < 256 := octet_lt
  have hr : ∀ x : Nat, (toString (x &&& 255)).data = digitsOf (x &&& 255) := by
    intro x
    exact repr_octet _ (hd x)
  simp only [String.data_append, hr]
  simp [List.append_assoc]

/-- Digit characters of a rendered octet are never separators. -/
theorem digitsOf_no_sep : ∀ n, n < 256 → ∀ c ∈ digitsOf n,
    (c = '.' ∨ c = ':' ∨ c = '%') → False := by
  have hall : ∀ n, n < 256 →
      (digitsOf n).all (fun c => !(c = '.' || c = ':' || c = '%')) = true := by decide
  intro n hn c hc habs
  have := List.all_eq_true.mp (hall n hn) c hc
  rcases habs with h | h | h <;> simp [h] at this

/-- The scan `firstSep` skips a block of non-separator characters. -/
theorem firstSep_append {l : List Char}
    (hl : ∀ c ∈ l, (c = '.' ∨ c = ':' ∨ c = '%') → False) (r : List Char) :
    firstSep (l ++ r) = firstSep r := by
  induction l with
  | nil => rfl
  | cons c t ih =>
    have hc : (decide (c = '.') || decide (c = ':') || decide (c = '%')) = false := by
      have h := hl c (List.mem_cons_self _ _)
      simp only [Bool.or_eq_false_iff, decide_eq_false_iff_not]
      tauto
    rw [List.cons_append]
    conv_lhs => rw [firstSep]
    rw [hc]
    simp only [Bool.false_eq_true, if_false]
    exact ih (fun d hd => hl d (List.mem_cons_of_mem _ hd))

/-- Parsing a rendered 32-bit address gives the address back: every value
`CalculateNetwork`/`Deaggregate`/`SplitNetwork` print can be re-parsed. -/
theorem ParseIPv4_roundtrip {ip : Nat} (h : ip < u32) :
    ParseIPv4 (IPToString ip) = .ok ip := by
  have h1 := octet_lt (ip >>> 24)
  have h2 := octet_lt (ip >>> 16)
  have h3 := octet_lt (ip >>> 8)
  have h4 := octet_lt ip
  have hdata := IPToString_data ip
  -- no character of the rendering is a '%'
  have hmem : ∀ c ∈ (IPToString ip).data, (c = '.' ∨ c = ':' ∨ c = '%') → c = '.' := by
    intro c hc hsep
    rw [hdata] at hc
    rcases List.mem_append.mp hc with hc | hc
    · exact absurd hsep (fun hs => digitsOf_no_sep _ (by omega) c hc hs)
    · rcases List.mem_cons.mp hc with rfl | hc
      · rfl
      · rcases List.mem_append.mp hc with hc | hc
        · exact absurd hsep (fun hs => digitsOf_no_sep _ (by omega) c hc hs)
        · rcases List.mem_cons.mp hc with rfl | hc
          · rfl
          · rcases List.mem_append.mp hc with hc | hc
            · exact absurd hsep (fun hs => digitsOf_no_sep _ (by omega) c hc hs)
            · rcases List.mem_cons.mp hc with rfl | hc
              · rfl
              · exact absurd hsep (fun hs => digitsOf_no_sep _ (by omega) c hc hs)
  have hnoperc : (IPToString ip).data.contains '%' = false := by
    have : ¬('%' ∈ (IPToString ip).data) := by
      intro hm
      have := hmem '%' hm (Or.inr (Or.inr rfl))
      simp at this
    simp only [List.contains, List.elem_eq_mem, decide_eq_false_iff_not]
    exact this
  have hsep : firstSep (IPToString ip).data = some '.' := by
    rw [hdata]
    rw [firstSep_append (fun c hc hs => digitsOf_no_sep _ (by omega) c hc hs)]
    rfl
  have hv4 : parseV4Go (IPToString ip).data =
      some [(ip >>> 24) &&& 255, (ip >>> 16) &&& 255, (ip >>> 8) &&& 255, ip &&& 255] := by
    rw [hdata]
    exact parseV4Go_render (by omega) (by omega) (by omega) (by omega)
  unfold ParseIPv4 goParseIP
  rw [hnoperc]
  simp only [Bool.false_eq_true, if_false]
  rw [hsep, hv4]
  simp only [Option.map_some]
  show Except.ok _ = _
  congr 1
  -- arithmetic: reassemble the octets
  have e1 : (ip >>> 24) &&& 255 = ip / 16777216 % 256 := by
    rw [land_255, Nat.shiftRight_eq_div_pow]
  have e2 : (ip >>> 16) &&& 255 = ip / 65536 % 256 := by
    rw [land_255, Nat.shiftRight_eq_div_pow]
  have e3 : (ip >>> 8) &&& 255 = ip / 256 % 256 := by
    rw [land_255, Nat.shiftRight_eq_div_pow]
  have e4 : ip &&& 255 = ip % 256 := land_255 ip
  rw [e1, e2, e3, e4]
  have hu : ip < 4294967296 := h
  omega

/-! ## The netmask scans -/

/-- The bit probe `mask & (1 << j) != 0` of the Go scans tests bit `j`. -/
theorem land_bit_ne_zero_iff (m j : Nat) : (m &&& (1 <<< j) ≠ 0) ↔ m.testBit j = true := by
  rw [Nat.one_shiftLeft]
  constructor
  · intro h
    cases hbb : m.testBit j with
    | false =>
      exfalso
      apply h
      apply Nat.eq_of_testBit_eq
      intro i
      simp only [Nat.testBit_and, Nat.testBit_two_pow, Nat.zero_testBit]
      by_cases hij : j = i
      · subst hij; simp [hbb]
      · simp [hij]
    | true => rfl
  · intro hb h0
    have hj : (m &&& 2 ^ j).testBit j = true := by
      simp [Nat.testBit_and, hb, Nat.testBit_two_pow]
    rw [h0] at hj
    simp [Nat.zero_testBit] at hj

/-- Split of a remainder at the next bit position. -/
theorem mod_two_pow_succ (m j : Nat) :
    m % 2 ^ (j + 1) = (if m.testBit j then 2 ^ j else 0) + m % 2 ^ j := by
  have h2 : (2:Nat) ^ (j + 1) = 2 ^ j * 2 := by rw [Nat.pow_succ]
  rw [h2, Nat.mod_mul]
  rw [Nat.testBit_to_div_mod]
  have : m / 2 ^ j % 2 = 0 ∨ m / 2 ^ j % 2 = 1 := by omega
  rcases this with h | h <;> simp [h] <;> omega

/-- The scan with `foundZero` set accepts exactly when all remaining bits
are clear. -/
theorem validScan_true_iff (m : Nat) :
    ∀ j, validScan m j true = true ↔ m % 2 ^ j = 0 := by
  intro j
  induction j with
  | zero => simp [validScan, Nat.mod_one]
  | succ j ih =>
    unfold validScan
    rw [mod_two_pow_succ]
    by_cases hb : m.testBit j = true
    · have hprobe : m &&& (1 <<< j) ≠ 0 := (land_bit_ne_zero_iff m j).mpr hb
      rw [if_pos hprobe, hb]
      have hpos := Nat.two_pow_pos j
      simp only [if_true]
      constructor
      · intro h; cases h
      · intro h; omega
    · have hb2 : m.testBit j = false := by
        cases hbb : m.testBit j
        · rfl
        · exact absurd hbb hb
      have hnprobe : ¬(m &&& (1 <<< j) ≠ 0) :=
        fun hp => hb ((land_bit_ne_zero_iff m j).mp hp)
      rw [if_neg hnprobe, hb2, ih]
      simp only [Bool.false_eq_true, if_false]
      omega

/-- The full scan accepts exactly the "ones then zeros" bit patterns
(characterised on the low `j` bits). -/
theorem validScan_false_iff (m : Nat) :
    ∀ j, validScan m j false = true ↔ ∃ k, k ≤ j ∧ m % 2 ^ j = 2 ^ j - 2 ^ (j - k) := by
  intro j
  induction j with
  | zero =>
    simp only [validScan, Nat.pow_zero, Nat.mod_one]
    constructor
    · intro _; exact ⟨0, by omega, by simp⟩
    · intro _; trivial
  | succ j ih =>
    unfold validScan
    have hpos := Nat.two_pow_pos j
    have hpsucc : (2:Nat) ^ (j + 1) = 2 ^ j + 2 ^ j := by rw [Nat.pow_succ]; omega
    by_cases hb : m.testBit j = true
    · have hprobe : m &&& (1 <<< j) ≠ 0 := (land_bit_ne_zero_iff m j).mpr hb
      rw [if_pos hprobe]
      simp only [Bool.false_eq_true, if_false]
      rw [ih, mod_two_pow_succ, hb]
      simp only [if_true]
      constructor
      · rintro ⟨k, hk, he⟩
        refine ⟨k + 1, by omega, ?_⟩
        have hidx : j + 1 - (k + 1) = j - k := by omega
        rw [hidx]
        have hle : 2 ^ (j - k) ≤ 2 ^ j := Nat.pow_le_pow_right (by omega) (by omega)
        omega
      · rintro ⟨k, hk, he⟩
        rcases Nat.eq_zero_or_pos k with rfl | hkpos
        · exfalso
          simp only [Nat.sub_zero, Nat.sub_self] at he
          omega
        · refine ⟨k - 1, by omega, ?_⟩
          have hidx : j + 1 - k = j - (k - 1) := by omega
          rw [hidx] at he
          have hle : 2 ^ (j - (k - 1)) ≤ 2 ^ j := Nat.pow_le_pow_right (by omega) (by omega)
          omega
    · have hb2 : m.testBit j = false := by
        cases hbb : m.testBit j
        · rfl
        · exact absurd hbb hb
      have hnprobe : ¬(m &&& (1 <<< j) ≠ 0) :=
        fun hp => hb ((land_bit_ne_zero_iff m j).mp hp)
      rw [if_neg hnprobe, validScan_true_iff, mod_two_pow_succ, hb2]
      simp only [Bool.false_eq_true, if_false, Nat.zero_add]
      have hmlt : m % 2 ^ j < 2 ^ j := Nat.mod_lt _ hpos
      constructor
      · intro h
        exact ⟨0, by omega, by simp [h]⟩
      · rintro ⟨k, hk, he⟩
        rcases Nat.eq_zero_or_pos k with rfl | hkpos
        · simp only [Nat.sub_zero, Nat.sub_self] at he
          exact he
        · exfalso
          have hle : 2 ^ (j + 1 - k) ≤ 2 ^ j := Nat.pow_le_pow_right (by omega) (by omega)
          omega

/-- The predicate `isValidNetmask` accepts exactly the contiguous prefix masks. -/
theorem isValidNetmask_iff {m : Nat} (hm : m < u32) :
    isValidNetmask m = true ↔ ∃ k, k ≤ 32 ∧ m = prefixMask k := by
  unfold isValidNetmask prefixMask
  rw [validScan_false_iff]
  have hmod : m % 2 ^ 32 = m := Nat.mod_eq_of_lt (u32_eq ▸ hm)
  rw [hmod]
  constructor
  · rintro ⟨k, hk, he⟩; exact ⟨k, hk, by rw [u32_eq]; exact he⟩
  · rintro ⟨k, hk, he⟩; exact ⟨k, hk, by rw [← u32_eq]; exact he⟩

/-- The bit-counting loop on a bit pattern with `c` set bits on top of the
scanned window returns `c`. -/
theorem leadCount_spec (m : Nat) :
    ∀ j c, c ≤ j → (∀ i, i < j → (m.testBit i = true ↔ j - c ≤ i)) →
      leadCount m j = c := by
  intro j
  induction j with
  | zero => intro c hc _; unfold leadCount; omega
  | succ j ih =>
    intro c hc hbits
    unfold leadCount
    rcases Nat.eq_zero_or_pos c with rfl | hcpos
    · have hb : m.testBit j = false := by
        cases hbb : m.testBit j
        · rfl
        · exfalso
          have := (hbits j (by omega)).mp hbb
          omega
      have hnprobe : ¬(m &&& (1 <<< j) ≠ 0) :=
        fun hp => by rw [(land_bit_ne_zero_iff m j).mp hp] at hb; cases hb
      rw [if_neg hnprobe]
    · have hb : m.testBit j = true := (hbits j (by omega)).mpr (by omega)
      have hprobe : m &&& (1 <<< j) ≠ 0 := (land_bit_ne_zero_iff m j).mpr hb
      rw [if_pos hprobe, ih (c - 1) (by omega) ?_]
      · omega
      · intro i hi
        rw [hbits i (by omega)]
        omega

/-- Counting the leading ones of a prefix mask recovers the prefix length. -/
theorem leadCount_mask {k : Nat} (hk : k ≤ 32) : leadCount (prefixMask k) 32 = k := by
  apply leadCount_spec _ 32 k hk
  intro i hi
  unfold prefixMask
  rw [testBit_himask (by omega) i]
  simp [hi]

/-- The mask-building loop produces the prefix mask. -/
theorem prefixMaskLoop_eq : ∀ k, k ≤ 32 → prefixMaskLoop k = prefixMask k := by
  intro k
  induction k with
  | zero =>
    intro _
    have h : prefixMaskLoop 0 = 0 := rfl
    rw [h]
    unfold prefixMask
    rw [u32_eq]
    norm_num
  | succ k ih =>
    intro hk
    unfold prefixMaskLoop
    rw [List.range_succ, List.foldl_append]
    have hloop : (List.range k).foldl (fun m i => m ||| (1 <<< (31 - i))) 0 =
        prefixMask k := ih (by omega)
    rw [hloop]
    simp only [List.foldl_cons, List.foldl_nil]
    apply Nat.eq_of_testBit_eq
    intro i
    unfold prefixMask
    rw [Nat.testBit_lor, Nat.one_shiftLeft, testBit_himask (by omega) i,
      testBit_himask (by omega) i, Nat.testBit_two_pow]
    by_cases h1 : 32 - k ≤ i <;> by_cases h2 : i < 32 <;> by_cases h3 : 31 - k = i <;>
      simp [h1, h2, h3] <;> omega

/-! ## Shapes of successful parses -/

/-- Every address `ParseIPv4` accepts is a 32-bit value. -/
theorem ParseIPv4_lt {s : String} {v : Nat} (h : ParseIPv4 s = .ok v) : v < u32 := by
  unfold ParseIPv4 at h
  split at h
  · simp at h
  · split at h
    · simp at h
    · simp only [Except.ok.injEq] at h
      subst h
      rw [u32_eq]
      omega

/-- Every mask `ParseNetmask` accepts is a contiguous prefix mask whose
prefix length is the returned bit count. -/
theorem ParseNetmask_ok {s : String} {m bc : Nat}
    (h : ParseNetmask s = .ok (m, bc)) : bc ≤ 32 ∧ m = prefixMask bc := by
  simp only [ParseNetmask] at h
  split at h
  · rename_i bitCount _
    split at h
    · simp at h
    · rename_i hr
      simp only [Except.ok.injEq, Prod.mk.injEq] at h
      obtain ⟨hm, hbc⟩ := h
      have hb32 : bitCount.toNat ≤ 32 := by omega
      subst hbc
      exact ⟨hb32, hm ▸ (prefixMaskLoop_eq _ hb32).symm ▸ rfl⟩
  · split at h
    · simp at h
    · rename_i mask hp
      have hlt := ParseIPv4_lt hp
      split at h
      · simp at h
      · rename_i hval
        simp only [Except.ok.injEq, Prod.mk.injEq] at h
        obtain ⟨hm, hbc⟩ := h
        subst hm
        have hv : isValidNetmask mask = true := by
          cases hvv : isValidNetmask mask
          · rw [hvv] at hval; simp at hval
          · rfl
        obtain ⟨k, hk, hmask⟩ := (isValidNetmask_iff hlt).mp hv
        subst hmask
        rw [leadCount_mask hk] at hbc
        subst hbc
        exact ⟨hk, rfl⟩

/-- Decomposition of a successful `CalculateNetwork` into its parses and
derived fields. -/
theorem CalculateNetwork_ok {ipStr maskStr : String} {net : IPv4Network}
    (h : CalculateNetwork ipStr maskStr = .ok net) :
    ∃ ip m bc, ParseIPv4 ipStr = .ok ip ∧ ParseNetmask maskStr = .ok (m, bc) ∧
      net.address = ip ∧ net.netmask = m ∧ net.bitCount = bc ∧
      net.networkID = ip &&& m ∧
      net.broadcast = (ip &&& m) ||| (m ^^^ 0xFFFFFFFF) ∧
      net.cls = GetClass ip ∧
      ((bc = 31 → net.hostMin = net.networkID ∧ net.hostMax = net.broadcast ∧
          net.hostsCount = 2) ∧
       (bc = 32 → net.hostMin = net.networkID ∧ net.hostMax = net.networkID ∧
          net.hostsCount = 1) ∧
       (bc ≠ 31 → bc ≠ 32 → net.hostMin = (net.networkID + 1) % u32 ∧
          net.hostMax = sub32 net.broadcast 1 ∧
          net.hostsCount = sub32 ((1 <<< (32 - bc)) % u32) 2)) := by
  unfold CalculateNetwork at h
  simp only [Bind.bind, Except.bind] at h
  split at h
  · simp at h
  · rename_i ip hp
    split at h
    · simp at h
    · rename_i p hm
      obtain ⟨m, bc⟩ := p
      simp only [pure, Except.pure, Except.ok.injEq] at h
      subst h
      refine ⟨ip, m, bc, hp, hm, rfl, rfl, rfl, rfl, rfl, rfl, ?_, ?_, ?_⟩
      · intro h31
        subst h31
        simp
      · intro h32
        subst h32
        simp
      · intro h31 h32
        simp only [if_neg h31, if_neg h32]
        exact ⟨trivial, trivial, trivial⟩

/-! ## Facts about derived network fields -/

theorem sub32_small {a b : Nat} (hb : b ≤ a) (ha : a < u32) : sub32 a b = a - b := by
  have ha2 : a < 4294967296 := ha
  show (a + (4294967296 - b % 4294967296)) % 4294967296 = a - b
  omega

/-- The network id `ip &&& prefixMask bc` is aligned to the block size and
bounded by the top block. -/
theorem nid_facts {ip bc : Nat} (hip : ip < u32) (hbc : bc ≤ 32) :
    2 ^ (32 - bc) ∣ (ip &&& prefixMask bc) ∧
      ip &&& prefixMask bc ≤ u32 - 2 ^ (32 - bc) ∧
      ip &&& prefixMask bc ≤ ip := by
  unfold prefixMask
  rw [land_himask hip (by omega)]
  have hdm := Nat.div_add_mod ip (2 ^ (32 - bc))
  have hdvd : 2 ^ (32 - bc) ∣ ip - ip % 2 ^ (32 - bc) := ⟨ip / 2 ^ (32 - bc), by omega⟩
  refine ⟨hdvd, ?_, by omega⟩
  have hdu : 2 ^ (32 - bc) ∣ u32 := by
    rw [u32_eq]
    exact pow_dvd_pow 2 (by omega)
  have := dvd_add_le (Nat.two_pow_pos (32 - bc)) hdvd hdu (by omega)
  omega

/-- The broadcast `networkID ||| ^mask` is `networkID + blockSize - 1`. -/
theorem broadcast_eq {ip bc : Nat} (hip : ip < u32) (hbc : bc ≤ 32) :
    (ip &&& prefixMask bc) ||| (prefixMask bc ^^^ 0xFFFFFFFF) =
      (ip &&& prefixMask bc) + (2 ^ (32 - bc) - 1) := by
  have h := (nid_facts hip hbc).1
  conv_lhs => rw [prefixMask, himask_xor_ones (by omega)]
  exact aligned_lor_low h

/-! ## Claim theorems -/

/-- Claim C7: for every network returned by `CalculateNetwork`,
`networkId AND wildcard(mask) = 0` and `broadcast = networkId OR wildcard(mask)`,
with `wildcard` the fixed-width complement computed by `GetWildcardMask`. -/
theorem claim_C7_wildcard_identities (ipStr maskStr : String) (net : IPv4Network)
    (h : CalculateNetwork ipStr maskStr = .ok net) :
    net.networkID &&& GetWildcardMask net.netmask = 0 ∧
    net.broadcast = net.networkID ||| GetWildcardMask net.netmask := by
  obtain ⟨ip, m, bc, hp, hm, ha, hmm, hbc, hnid, hbr, _, _⟩ := CalculateNetwork_ok h
  obtain ⟨hbc32, hmask⟩ := ParseNetmask_ok hm
  have hip := ParseIPv4_lt hp
  constructor
  · rw [hnid, hmm, hmask]
    unfold GetWildcardMask
    rw [show prefixMask bc ^^^ 0xFFFFFFFF = 2 ^ (32 - bc) - 1 from by
      rw [prefixMask]; exact himask_xor_ones (by omega)]
    exact aligned_land_low (nid_facts hip hbc32).1
  · rw [hbr, hnid, hmm]
    rfl

/-- Witness for C7 at `CalculateNetwork "192.168.1.1" "24"`. -/
theorem claim_C7_witness :
    ∃ net, CalculateNetwork "192.168.1.1" "24" = .ok net ∧
      net.networkID &&& GetWildcardMask net.netmask = 0 ∧
      net.broadcast = net.networkID ||| GetWildcardMask net.netmask :=
  ⟨_, rfl, claim_C7_wildcard_identities "192.168.1.1" "24" _ rfl⟩

/-- Claim C5: host-field special cases of `CalculateNetwork`: for prefix
lengths up to 30, `hostMin = networkId + 1`, `hostMax = broadcast - 1` and
`hostsCount = 2^(32-prefixLen) - 2` (as a 32-bit value); `/31` keeps both
endpoints with count 2; `/32` is a single host. -/
theorem claim_C5_host_fields (ipStr maskStr : String) (net : IPv4Network)
    (h : CalculateNetwork ipStr maskStr = .ok net) :
    (net.bitCount ≤ 30 →
      net.hostMin = net.networkID + 1 ∧ net.hostMax = net.broadcast - 1 ∧
      net.hostsCount = (2 ^ (32 - net.bitCount) - 2) % u32) ∧
    (net.bitCount = 31 →
      net.hostMin = net.networkID ∧ net.hostMax = net.broadcast ∧
      net.hostsCount = 2) ∧
    (net.bitCount = 32 →
      net.hostMin = net.networkID ∧ net.hostMax = net.networkID ∧
      net.hostsCount = 1) := by
  obtain ⟨ip, m, bc, hp, hm, ha, hmm, hbc, hnid, hbr, _, h31, h32, hlow⟩ :=
    CalculateNetwork_ok h
  obtain ⟨hbc32, hmask⟩ := ParseNetmask_ok hm
  have hip := ParseIPv4_lt hp
  obtain ⟨hdvd, hnb, _⟩ := nid_facts hip hbc32
  have hbeq : net.broadcast = (ip &&& prefixMask bc) + (2 ^ (32 - bc) - 1) := by
    rw [hbr, hmask]
    exact broadcast_eq hip hbc32
  have hnid2 : net.networkID = ip &&& prefixMask bc := by rw [hnid, hmask]
  refine ⟨?_, by rw [hbc]; exact h31, by rw [hbc]; exact h32⟩
  intro hle
  rw [hbc] at hle
  obtain ⟨e1, e2, e3⟩ := hlow (by omega) (by omega)
  have hpow2 : 4 ≤ 2 ^ (32 - bc) := by
    calc (4:Nat) = 2 ^ 2 := rfl
    _ ≤ 2 ^ (32 - bc) := Nat.pow_le_pow_right (by omega) (by omega)
  have hpowlt : 2 ^ (32 - bc) ≤ u32 := by
    rw [u32_eq]
    exact Nat.pow_le_pow_right (by omega) (by omega)
  have hu : u32 = 4294967296 := rfl
  rw [← hnid2] at hnb
  refine ⟨?_, ?_, ?_⟩
  · rw [e1]
    apply Nat.mod_eq_of_lt
    omega
  · rw [e2]
    have hb1 : 1 ≤ net.broadcast := by rw [hbeq, ← hnid2]; omega
    have hb2 : net.broadcast < u32 := by rw [hbeq, ← hnid2]; omega
    rw [sub32_small hb1 hb2]
  · rw [e3, hbc]
    rcases Nat.eq_zero_or_pos bc with rfl | hbcpos
    · show sub32 ((1 <<< 32) % u32) 2 = (2 ^ 32 - 2) % u32
      rw [Nat.one_shiftLeft]
      have hz : (2:Nat) ^ 32 % u32 = 0 := by norm_num [u32]
      rw [hz]
      show (0 + (4294967296 - 2 % 4294967296)) % 4294967296 = (2 ^ 32 - 2) % 4294967296
      norm_num
    · have hlt : 2 ^ (32 - bc) < u32 := by
        rw [u32_eq]
        exact Nat.pow_lt_pow_right (by omega) (by omega)
      rw [Nat.one_shiftLeft, Nat.mod_eq_of_lt hlt,
        sub32_small (by omega) hlt, Nat.mod_eq_of_lt (by omega)]

/-- Witness for C5 at `CalculateNetwork "192.168.1.1" "24"`. -/
theorem claim_C5_witness :
    ∃ net, CalculateNetwork "192.168.1.1" "24" = .ok net ∧
      (net.bitCount ≤ 30 →
        net.hostMin = net.networkID + 1 ∧ net.hostMax = net.broadcast - 1 ∧
        net.hostsCount = (2 ^ (32 - net.bitCount) - 2) % u32) ∧
      (net.bitCount = 31 →
        net.hostMin = net.networkID ∧ net.hostMax = net.broadcast ∧
        net.hostsCount = 2) ∧
      (net.bitCount = 32 →
        net.hostMin = net.networkID ∧ net.hostMax = net.networkID ∧
        net.hostsCount = 1) :=
  ⟨_, rfl, claim_C5_host_fields "192.168.1.1" "24" _ rfl⟩

/-- Claim C6: on dotted-quad mask text (text `strconv.Atoi` rejects),
`ParseNetmask` succeeds iff the parsed value is a contiguous run of leading
1 bits, returning the mask with its leading-ones count as prefix length, and
fails with the "not contiguous" invalid-mask error otherwise; in particular
`255.0.255.0` is rejected. -/
theorem claim_C6_mask_contiguity (s : String) (m : Nat)
    (ha : goAtoi (trimSlash s).data = none)
    (hp : ParseIPv4 (trimSlash s) = .ok m) :
    ((∃ bc, ParseNetmask s = .ok (m, bc)) ↔ ∃ k, k ≤ 32 ∧ m = prefixMask k) ∧
    (∀ k, k ≤ 32 → m = prefixMask k → ParseNetmask s = .ok (m, k)) ∧
    (¬(∃ k, k ≤ 32 ∧ m = prefixMask k) →
      ParseNetmask s = .error ("invalid netmask: " ++ trimSlash s ++ " (not contiguous)")) ∧
    ParseNetmask "255.0.255.0" = .error "invalid netmask: 255.0.255.0 (not contiguous)" := by
  have hlt := ParseIPv4_lt hp
  have hred : ParseNetmask s =
      (if ¬isValidNetmask m = true then
        .error ("invalid netmask: " ++ trimSlash s ++ " (not contiguous)")
      else .ok (m, leadCount m 32)) := by
    simp only [ParseNetmask, ha, hp]
  refine ⟨?_, ?_, ?_, by decide⟩
  · constructor
    · rintro ⟨bc, hbc⟩
      exact ⟨bc, (ParseNetmask_ok hbc).1, (ParseNetmask_ok hbc).2⟩
    · rintro ⟨k, hk, hmask⟩
      refine ⟨k, ?_⟩
      have hv : isValidNetmask m = true := (isValidNetmask_iff hlt).mpr ⟨k, hk, hmask⟩
      rw [hred, if_neg (by rw [hv]; simp)]
      rw [hmask, leadCount_mask hk]
  · intro k hk hmask
    have hv : isValidNetmask m = true := (isValidNetmask_iff hlt).mpr ⟨k, hk, hmask⟩
    rw [hred, if_neg (by rw [hv]; simp)]
    rw [hmask, leadCount_mask hk]
  · intro hnc
    have hv : isValidNetmask m = false := by
      cases hvv : isValidNetmask m
      · rfl
      · exact absurd ((isValidNetmask_iff hlt).mp hvv) hnc
    rw [hred, if_pos (by rw [hv]; simp)]

/-- Witness for C6 at the contiguous mask `255.255.255.0`. -/
theorem claim_C6_witness : ParseNetmask "255.255.255.0" = .ok (4294967040, 24) :=
  (claim_C6_mask_contiguity "255.255.255.0" 4294967040 (by decide) rfl).2.1 24
    (by omega) (by decide)

/-- Claim C8, counterexample: on IPv6 input `Deaggregate` fails with the very
same "not an IPv4 address" invalid-address error that `ParseIPv4` uses for
wrong-family text — there is no distinct `UnsupportedFamily` error kind. -/
theorem claim_C8_counterexample :
    Deaggregate "2001:db8::1" "2001:db8::2" =
      some (.error "not an IPv4 address: 2001:db8::1") ∧
    ParseIPv4 "2001:db8::1" = .error "not an IPv4 address: 2001:db8::1" :=
  ⟨rfl, rfl⟩

/-- Claim C8, amended: for IPv6 text that is not IPv4-mapped (in either
position), `Deaggregate` fails with the wrong-family invalid-address error
`"not an IPv4 address: …"`; the code has no separate `UnsupportedFamily`
kind (and IPv4-mapped IPv6 text is accepted as IPv4). -/
theorem claim_C8_amended :
    (∀ s y b, goParseIP s = some b → to4 b = none →
      Deaggregate s y = some (.error ("not an IPv4 address: " ++ s))) ∧
    (∀ x y v b, ParseIPv4 x = .ok v → goParseIP y = some b → to4 b = none →
      Deaggregate x y = some (.error ("not an IPv4 address: " ++ y))) := by
  constructor
  · intro s y b hg ht
    have hp : ParseIPv4 s = .error ("not an IPv4 address: " ++ s) := by
      simp only [ParseIPv4, hg, ht]
    unfold Deaggregate
    rw [hp]
  · intro x y v b hx hg ht
    have hp : ParseIPv4 y = .error ("not an IPv4 address: " ++ y) := by
      simp only [ParseIPv4, hg, ht]
    unfold Deaggregate
    rw [hx, hp]

/-- Witness for the amended C8 at `Deaggregate "::1" "0.0.0.1"`. -/
theorem claim_C8_witness :
    Deaggregate "::1" "0.0.0.1" = some (.error "not an IPv4 address: ::1") :=
  claim_C8_amended.1 "::1" "0.0.0.1" _ rfl rfl

/-- Claim C9, counterexample: the IPv4-mapped IPv6 text `::ffff:192.168.0.1`
is accepted by `ParseIPv4` (value 192.168.0.1), so not every IPv6 textual
form fails. -/
theorem claim_C9_counterexample :
    ParseIPv4 "::ffff:192.168.0.1" = .ok 3232235521 := rfl

/-- Claim C9, amended: `ParseIPv4` accepts exactly the texts `net.ParseIP`
parses to an IPv4-representable address: dotted-quad text (in particular
every rendered 32-bit address round-trips) and IPv4-mapped IPv6 text; all
other input fails with an invalid-address error ("invalid IP address" when
unparsable, "not an IPv4 address" for other families). -/
theorem claim_C9_amended :
    (∀ v : Nat, v < u32 → ParseIPv4 (IPToString v) = .ok v) ∧
    (∀ s, goParseIP s = none → ParseIPv4 s = .error ("invalid IP address: " ++ s)) ∧
    (∀ s b, goParseIP s = some b → to4 b = none →
      ParseIPv4 s = .error ("not an IPv4 address: " ++ s)) ∧
    ParseIPv4 "::ffff:8.8.8.8" = .ok 134744072 ∧
    ParseIPv4 "::1" = .error "not an IPv4 address: ::1" ∧
    ParseIPv4 "256.1.1.1" = .error "invalid IP address: 256.1.1.1" ∧
    ParseIPv4 "abc" = .error "invalid IP address: abc" := by
  refine ⟨fun v hv => ParseIPv4_roundtrip hv, ?_, ?_, rfl, rfl, rfl, rfl⟩
  · intro s hg
    simp only [ParseIPv4, hg]
  · intro s b hg ht
    simp only [ParseIPv4, hg, ht]

/-- Witness for the amended C9: the round-trip at 192.168.0.1. -/
theorem claim_C9_witness : ParseIPv4 (IPToString 3232235521) = .ok 3232235521 :=
  claim_C9_amended.1 3232235521 (by norm_num [u32])

/-- Claim C4: `SplitNetwork` does not keep subnets disjoint: with requests
`[2,100]` on `192.168.0.0/24` the unaligned cursor `192.168.0.4` is masked
down to `192.168.0.0`, so the emitted `/25` contains the previously emitted
`/30` (witnessed by the address 192.168.0.0 = 3232235520 lying in both). -/
theorem claim_C4_overlap :
    SplitNetwork "192.168.0.0" "24" [2, 100] =
      some (.ok ["192.168.0.0/30", "192.168.0.0/25"]) ∧
    (3232235520 ≤ 3232235520 ∧ 3232235520 < 3232235520 + 2 ^ (32 - 30) ∧
     3232235520 ≤ 3232235520 ∧ 3232235520 < 3232235520 + 2 ^ (32 - 25)) :=
  ⟨rfl, by norm_num⟩

/-- Claim C3: for `start ≤ end`, the outer loop of `Deaggregate` terminates
(for some fuel, hence for the canonical one) iff `end` is not
`255.255.255.255 = 2^32 - 1`; at the maximal end the cursor advance wraps to
a value still `≤ end` and the loop never exits. -/
theorem claim_C3_termination (s e : Nat) (hs32 : s < u32) (he : e < u32)
    (hse : s ≤ e) :
    (∃ fuel bs, deaggLoop fuel s e = some bs) ↔ e ≠ u32 - 1 := by
  constructor
  · rintro ⟨fuel, bs, hbs⟩ rfl
    rw [deaggLoop_none_of_max fuel s hs32] at hbs
    cases hbs
  · intro hne
    exact ⟨e + 1 - s, greedyBlocks s e,
      deaggLoop_eq_greedy (by omega) (e + 1 - s) s hs32 (le_refl _)⟩

/-- Witness for C3: the loop terminates on `[5, 7]`. -/
theorem claim_C3_witness : ∃ fuel bs, deaggLoop fuel 5 7 = some bs :=
  (claim_C3_termination 5 7 (by norm_num [u32]) (by norm_num [u32])
    (by omega)).mpr (by norm_num [u32])

/-- Claim C1, counterexample: at `end = 255.255.255.255` (a valid pair with
`start ≤ end`) `Deaggregate` never returns — after emitting the block ending
at the maximal address the wrapped cursor is still `≤ end` — so the claim
does not hold for every valid pair.  (`none` is the divergence marker of the
embedding; `deaggLoop_none_of_max` shows exhaustion at every fuel.) -/
theorem claim_C1_counterexample :
    Deaggregate "255.255.255.254" "255.255.255.255" = none := rfl

/-- Claim C1, amended: for `start ≤ end` with `end` below the maximal
address, `Deaggregate` returns the greedy list of blocks, which tiles
`[start, end]` exactly (union is exactly the range, ordered, aligned, inside
the range, no overlaps, no gaps), takes at each position the largest aligned
block that does not pass `end`, and is a shortest list of aligned in-range
CIDR blocks covering the range. -/
theorem claim_C1_deaggregate_correct (s e : Nat) (hs32 : s < u32) (hse : s ≤ e)
    (he : e < u32 - 1) :
    Deaggregate (IPToString s) (IPToString e) =
      some (.ok ((greedyBlocks s e).map renderBlock)) ∧
    chainCovers s e (greedyBlocks s e) ∧
    greedyMaximal e (greedyBlocks s e) ∧
    (∀ a, (s ≤ a ∧ a ≤ e) ↔
      ∃ bp ∈ greedyBlocks s e, bp.1 ≤ a ∧ a < bp.1 + 2 ^ (32 - bp.2)) ∧
    (greedyBlocks s e).Pairwise (fun x y => x.1 + 2 ^ (32 - x.2) ≤ y.1) ∧
    (∀ C, IsCover s e C → (greedyBlocks s e).length ≤ C.length) := by
  have hchain := greedyBlocks_chain he (e + 1 - s) s (le_refl _) hs32 (by omega)
  refine ⟨?_, hchain, greedyBlocks_maximal he (e + 1 - s) s (le_refl _) hs32,
    chainCovers_union _ _ hchain, chainCovers_pairwise _ _ hchain,
    fun C hC => greedyBlocks_minimal he (e + 1 - s) s (le_refl _) hs32 C hC⟩
  have hng : ¬s > e := by omega
  simp only [Deaggregate, ParseIPv4_roundtrip hs32,
    ParseIPv4_roundtrip (show e < u32 from by omega), if_neg hng,
    deaggLoop_eq_greedy he (e + 1 - s) s hs32 (le_refl _)]

/-- Witness for the amended C1: the spec's example range
`192.168.0.1 … 192.168.0.10`. -/
theorem claim_C1_witness :
    Deaggregate "192.168.0.1" "192.168.0.10" =
      some (.ok ((greedyBlocks 3232235521 3232235530).map renderBlock)) ∧
    (∀ C, IsCover 3232235521 3232235530 C →
      (greedyBlocks 3232235521 3232235530).length ≤ C.length) := by
  have h := claim_C1_deaggregate_correct 3232235521 3232235530
    (by norm_num [u32]) (by omega) (by norm_num [u32])
  exact ⟨h.1, h.2.2.2.2.2⟩

/-! ## The `hostsNeeded` doubling loop -/

/-- From any power-of-two state the doubling loop finishes within the fuel
budget (it reaches the wrapped value 0, whose exit test only fails for
`size = 2^32 - 1`). -/
theorem hostsLoop_reaches :
    ∀ n size, size ≤ u32 - 2 → n ≤ 30 →
      (hostsLoop (n + 1) (2 ^ (32 - n) % u32) size).isSome = true := by
  intro n
  induction n with
  | zero =>
    intro size hsz _
    have hz : (2:Nat) ^ (32 - 0) % u32 = 0 := by norm_num [u32]
    rw [hz]
    unfold hostsLoop
    have hc : ¬sub32 0 2 < size := by
      have : sub32 0 2 = u32 - 2 := by
        show (0 + (4294967296 - 2 % 4294967296)) % 4294967296 = u32 - 2
        norm_num [u32]
      omega
    rw [if_neg hc]
    rfl
  | succ n ih =>
    intro size hsz hn
    unfold hostsLoop
    by_cases hc : sub32 (2 ^ (32 - (n + 1)) % u32) 2 < size
    · rw [if_pos hc]
      have hlt : (2:Nat) ^ (32 - (n + 1)) < u32 := by
        rw [u32_eq]
        exact Nat.pow_lt_pow_right (by omega) (by omega)
      have he : 2 ^ (32 - (n + 1)) % u32 * 2 % u32 = 2 ^ (32 - n) % u32 := by
        rw [Nat.mod_eq_of_lt hlt]
        have : (2:Nat) ^ (32 - (n + 1)) * 2 = 2 ^ (32 - n) := by
          rw [← Nat.pow_succ]
          congr 1
          omega
        rw [this]
      rw [he]
      exact ih size hsz (by omega)
    · rw [if_neg hc]
      rfl

/-- The doubling loop diverges exactly on `uint32(size) = 2^32 - 1`: the
state stays even, so `hostsNeeded - 2` is even and always below `2^32 - 1`,
and the loop never exits at any fuel. -/
theorem hostsLoop_max_none : ∀ fuel h, h % 2 = 0 → h < u32 →
    hostsLoop fuel h (u32 - 1) = none := by
  intro fuel
  induction fuel with
  | zero => intro h _ _; rfl
  | succ fuel ih =>
    intro h heven hlt
    have hlt2 : h < 4294967296 := hlt
    have hs : sub32 h 2 = (h + 4294967294) % 4294967296 := by
      show (h + (4294967296 - 2 % 4294967296)) % 4294967296 = _
      norm_num
    have hslt : sub32 h 2 < u32 - 1 := by
      show sub32 h 2 < 4294967296 - 1
      rw [hs]
      omega
    unfold hostsLoop
    rw [if_pos hslt]
    apply ih
    · show h * 2 % 4294967296 % 2 = 0
      omega
    · show h * 2 % 4294967296 < 4294967296
      omega

/-- Claim C10: the `hostsNeeded` doubling loop of `SplitNetwork` terminates for
every requested size whose `uint32` conversion is not `2^32 - 1` (fuel 31 is
enough), and runs forever when it is (for example the request `-1`), making
`SplitNetwork` diverge on such input. -/
theorem claim_C10_hosts_loop_termination :
    (∀ size, size ≤ u32 - 2 → (hostsLoop 31 4 size).isSome = true) ∧
    (∀ fuel, hostsLoop fuel 4 (u32 - 1) = none) ∧
    u32ofInt (-1) = u32 - 1 ∧
    SplitNetwork "10.0.0.0" "8" [-1] = none := by
  refine ⟨?_, ?_, rfl, rfl⟩
  · intro size hsz
    have h4 : (2:Nat) ^ (32 - 30) % u32 = 4 := by norm_num [u32]
    have := hostsLoop_reaches 30 size hsz (le_refl _)
    rw [h4] at this
    exact this
  · intro fuel
    exact hostsLoop_max_none fuel 4 (by norm_num) (by norm_num [u32])

/-- Witness for C10: the loop terminates for the request 100. -/
theorem claim_C10_witness : (hostsLoop 31 4 100).isSome = true :=
  claim_C10_hosts_loop_termination.1 100 (by norm_num [u32])

/-! ## `SplitNetwork` sizing and allocation -/

theorem sub32_pow {j : Nat} (h2 : 2 ≤ j) (h31 : j ≤ 31) :
    sub32 (2 ^ j) 2 = 2 ^ j - 2 := by
  apply sub32_small
  · have := Nat.pow_le_pow_right (show 1 ≤ 2 by omega) h2
    omega
  · rw [u32_eq]
    exact Nat.pow_lt_pow_right (by omega) (by omega)

/-- The doubling loop from state `2^j` returns the smallest adequate
power of two (given that everything below `j` was inadequate). -/
theorem hostsLoop_aux {sz : Nat} (hsz : sz ≤ 2 ^ 31 - 2) :
    ∀ m j, 31 - j = m → 2 ≤ j → j ≤ 31 →
      (∀ i, 2 ≤ i → i < j → 2 ^ i - 2 < sz) →
      ∃ k, j ≤ k ∧ k ≤ 31 ∧ hostsLoop (33 - j) (2 ^ j) sz = some (2 ^ k) ∧
        sz ≤ 2 ^ k - 2 ∧ ∀ i, 2 ≤ i → sz ≤ 2 ^ i - 2 → k ≤ i := by
  intro m
  induction m with
  | zero =>
    intro j hm h2 h31 hmin
    have hj : j = 31 := by omega
    subst hj
    have hc : ¬sub32 (2 ^ 31) 2 < sz := by
      rw [sub32_pow (by omega) (by omega)]
      omega
    refine ⟨31, le_refl _, le_refl _, ?_, by omega, ?_⟩
    · show hostsLoop 2 (2 ^ 31) sz = some (2 ^ 31)
      unfold hostsLoop
      rw [if_neg hc]
    · intro i hi2 hile
      by_contra hlt
      have := hmin i hi2 (by omega)
      omega
  | succ m ih =>
    intro j hm h2 h31 hmin
    have hj30 : j ≤ 30 := by omega
    have hfuel : 33 - j = (32 - j) + 1 := by omega
    by_cases hc : sub32 (2 ^ j) 2 < sz
    · have hstep : (2:Nat) ^ j * 2 % u32 = 2 ^ (j + 1) := by
        have hlt : (2:Nat) ^ (j + 1) < u32 := by
          rw [u32_eq]
          exact Nat.pow_lt_pow_right (by omega) (by omega)
        rw [← Nat.pow_succ]
        exact Nat.mod_eq_of_lt hlt
      obtain ⟨k, hk1, hk2, hk3, hk4, hk5⟩ := ih (j + 1) (by omega) (by omega) (by omega)
        (by
          intro i hi2 hilt
          rcases Nat.lt_or_ge i j with h | h
          · exact hmin i hi2 h
          · have : i = j := by omega
            subst this
            rw [sub32_pow h2 (by omega)] at hc
            exact hc)
      refine ⟨k, by omega, hk2, ?_, hk4, hk5⟩
      rw [hfuel]
      unfold hostsLoop
      rw [if_pos hc, hstep]
      have : 32 - j = 33 - (j + 1) := by omega
      rw [this]
      exact hk3
    · refine ⟨j, le_refl _, by omega, ?_, ?_, ?_⟩
      · rw [hfuel]
        unfold hostsLoop
        rw [if_neg hc]
      · rw [sub32_pow h2 (by omega)] at hc
        omega
      · intro i hi2 hile
        by_contra hlt
        have := hmin i hi2 (by omega)
        omega

/-- The per-request sizing of `SplitNetwork`: the smallest power-of-two
block of at least 4 addresses whose capacity minus 2 covers the request. -/
theorem hostsLoop_spec {sz : Nat} (hsz : sz ≤ 2 ^ 31 - 2) :
    ∃ k, 2 ≤ k ∧ k ≤ 31 ∧ hostsLoop 31 4 sz = some (2 ^ k) ∧
      sz ≤ 2 ^ k - 2 ∧ ∀ i, 2 ≤ i → sz ≤ 2 ^ i - 2 → k ≤ i := by
  obtain ⟨k, h1, h2, h3, h4, h5⟩ := hostsLoop_aux hsz 29 2 rfl (le_refl _)
    (by omega) (by omega)
  exact ⟨k, by omega, h2, h3, h4, h5⟩

/-- A `Forall₂` relation gives a property of every member of the right list. -/
theorem forall₂_mem_right {α β : Type} {R : α → β → Prop} :
    ∀ {l1 : List α} {l2 : List β}, List.Forall₂ R l1 l2 →
      ∀ b ∈ l2, ∃ a ∈ l1, R a b := by
  intro l1 l2 h
  induction h with
  | nil => intro b hb; cases hb
  | cons hR _ ih =>
    intro b hb
    rcases List.mem_cons.mp hb with rfl | hb
    · exact ⟨_, List.mem_cons_self _ _, hR⟩
    · obtain ⟨a, ha, hab⟩ := ih b hb
      exact ⟨a, List.mem_cons_of_mem _ ha, hab⟩

/-- The size-conversion pass of `SplitNetwork` on in-range requests:
it terminates and produces, in order, the smallest adequate block sizes. -/
theorem hostCountsOf_spec :
    ∀ sizes : List Int, (∀ sz ∈ sizes, 0 ≤ sz ∧ sz ≤ 2 ^ 31 - 2) →
      ∃ hcs, hostCountsOf sizes = some hcs ∧
        List.Forall₂ (fun (sz : Int) (h : Nat) => ∃ k, 2 ≤ k ∧ k ≤ 31 ∧ h = 2 ^ k ∧
          sz.toNat ≤ 2 ^ k - 2 ∧ ∀ i, 2 ≤ i → sz.toNat ≤ 2 ^ i - 2 → k ≤ i)
          sizes hcs := by
  intro sizes
  induction sizes with
  | nil => exact fun _ => ⟨[], rfl, List.Forall₂.nil⟩
  | cons sz rest ih =>
    intro hb
    obtain ⟨h0, h1⟩ := hb sz (List.mem_cons_self _ _)
    obtain ⟨hcs, hhcs, hfa⟩ := ih (fun x hx => hb x (List.mem_cons_of_mem _ hx))
    have hconv : u32ofInt sz = sz.toNat := by
      unfold u32ofInt
      rw [Int.emod_eq_of_lt h0 (by omega)]
    have hszn : sz.toNat ≤ 2 ^ 31 - 2 := by omega
    obtain ⟨k, hk2, hk31, hloop, hcap, hmin⟩ := hostsLoop_spec hszn
    refine ⟨2 ^ k :: hcs, ?_, List.Forall₂.cons ⟨k, hk2, hk31, rfl, hcap, hmin⟩ hfa⟩
    unfold hostCountsOf at hhcs ⊢
    rw [List.mapM_cons, hconv, hloop, hhcs]
    rfl

/-- The prefix loop on a power-of-two block size yields `32 - k`. -/
theorem prefixLoopF_pow : ∀ fuel k p, k ≤ fuel → prefixLoopF fuel (2 ^ k) p = p - k := by
  intro fuel
  induction fuel with
  | zero =>
    intro k p hk
    have : k = 0 := by omega
    subst this
    simp [prefixLoopF]
  | succ fuel ih =>
    intro k p hk
    cases k with
    | zero =>
      unfold prefixLoopF
      rw [if_neg (by norm_num)]
      simp
    | succ k =>
      unfold prefixLoopF
      rw [if_pos (by rw [Nat.pow_succ]; have := Nat.two_pow_pos k; omega)]
      have hshift : (2:Nat) ^ (k + 1) >>> 1 = 2 ^ k := by
        rw [Nat.shiftRight_succ, Nat.shiftRight_zero, Nat.pow_succ]
        omega
      rw [hshift, ih k (p - 1) (by omega)]
      omega

theorem prefixLoop_pow {k : Nat} (hk : k ≤ 31) : prefixLoop (2 ^ k) 32 = 32 - k :=
  prefixLoopF_pow 32 k 32 (by omega)

/-- Parsing a rendered prefix length through `ParseNetmask`. -/
theorem ParseNetmask_repr : ∀ p, p < 33 →
    ParseNetmask (Nat.repr p) = .ok (prefixMaskLoop p, p) := by decide

/-- Behaviour of `CalculateNetwork` on a rendered cursor and prefix, as used by the
allocation loop of `SplitNetwork`. -/
theorem CalculateNetwork_render {ip p : Nat} (hip : ip < u32) (hp : p ≤ 32) :
    ∃ net, CalculateNetwork (IPToString ip) (toString p) = .ok net ∧
      net.networkID = ip &&& prefixMask p := by
  have hm : ParseNetmask (toString p) = .ok (prefixMaskLoop p, p) :=
    ParseNetmask_repr p (by omega)
  simp only [CalculateNetwork, Bind.bind, Except.bind, ParseIPv4_roundtrip hip, hm,
    pure, Except.pure]
  refine ⟨_, rfl, ?_⟩
  show ip &&& prefixMaskLoop p = ip &&& prefixMask p
  rw [prefixMaskLoop_eq p hp]

/-- The allocation loop succeeds on power-of-two block sizes and equals the
arithmetic-level `allocBlocks`. -/
theorem splitAlloc_spec :
    ∀ (hcs : List Nat) (cursor : Nat), cursor < u32 →
      (∀ h ∈ hcs, ∃ k, 2 ≤ k ∧ k ≤ 31 ∧ h = 2 ^ k) →
      splitAlloc cursor hcs = .ok (allocBlocks cursor hcs) := by
  intro hcs
  induction hcs with
  | nil => intro cursor _ _; rfl
  | cons hc rest ih =>
    intro cursor hcur hpow
    obtain ⟨k, hk2, hk31, rfl⟩ := hpow hc (List.mem_cons_self _ _)
    have hp : prefixLoop (2 ^ k) 32 = 32 - k := prefixLoop_pow hk31
    obtain ⟨net, hnet, hnid⟩ := CalculateNetwork_render hcur
      (show 32 - k ≤ 32 by omega)
    have hrec := ih ((cursor + (1 <<< (32 - (32 - k))) % u32) % u32)
      (Nat.mod_lt _ (by norm_num [u32]))
      (fun h hh => hpow h (List.mem_cons_of_mem _ hh))
    simp only [splitAlloc, Bind.bind, Except.bind, hp, hnet, hrec, allocBlocks, hnid]
    rfl

theorem allocBlocks_length : ∀ (hcs : List Nat) (cursor : Nat),
    (allocBlocks cursor hcs).length = hcs.length := by
  intro hcs
  induction hcs with
  | nil => intro _; rfl
  | cons hc rest ih =>
    intro cursor
    unfold allocBlocks
    simp only [List.length_cons, ih]

/-- Claim C2, counterexample: on the valid base network `0.0.0.0/0` the code
computes the capacity as the truncated `uint32(1) << 32 = 0`, so the request
`[100]` fails with `CapacityExceeded (128 > 0)` even though the true
capacity `2^(32-0)` is not exceeded — the failure condition is not
"exactly when the sum exceeds `2^(32-prefixLen)`". -/
theorem claim_C2_counterexample :
    SplitNetwork "0.0.0.0" "0" [100] =
      some (.error "requested subnet sizes exceed available space (128 > 0)") ∧
    128 ≤ 2 ^ (32 - 0) :=
  ⟨rfl, by norm_num⟩

/-- Claim C2, amended: for every valid base network and request list whose
entries lie in `[0, 2^31 - 2]`, `SplitNetwork` sizes each request to the
smallest power-of-two block of at least 4 addresses whose capacity minus 2
covers the request, sums the block sizes as a wrapping 32-bit value, fails
with `CapacityExceeded` (reporting both totals) exactly when this sum
exceeds the 32-bit-truncated capacity `uint32(1) << (32 - prefixLen)`, and
otherwise returns one subnet per request in request order (the cursor-walk
rendering `allocBlocks`); in particular `[100,50,25]` on `192.168.0.0/24`
yields the non-overlapping `/25`, `/26`, `/27` inside the `/24`. -/
theorem claim_C2_split_network (netStr maskStr : String) (sizes : List Int)
    (net : IPv4Network) (hnet : CalculateNetwork netStr maskStr = .ok net)
    (hb : ∀ sz ∈ sizes, 0 ≤ sz ∧ sz ≤ 2 ^ 31 - 2) :
    ∃ hcs, hostCountsOf sizes = some hcs ∧
      List.Forall₂ (fun (sz : Int) (h : Nat) => ∃ k, 2 ≤ k ∧ k ≤ 31 ∧ h = 2 ^ k ∧
        sz.toNat ≤ 2 ^ k - 2 ∧ ∀ i, 2 ≤ i → sz.toNat ≤ 2 ^ i - 2 → k ≤ i)
        sizes hcs ∧
      ((hcs.foldl (fun acc h => (acc + h) % u32) 0 >
          (1 <<< (32 - net.bitCount)) % u32 →
        SplitNetwork netStr maskStr sizes =
          some (.error (capacityMsg (hcs.foldl (fun acc h => (acc + h) % u32) 0)
            ((1 <<< (32 - net.bitCount)) % u32)))) ∧
       (hcs.foldl (fun acc h => (acc + h) % u32) 0 ≤
          (1 <<< (32 - net.bitCount)) % u32 →
        SplitNetwork netStr maskStr sizes =
          some (.ok (allocBlocks net.networkID hcs)) ∧
        (allocBlocks net.networkID hcs).length = sizes.length)) ∧
      (SplitNetwork "192.168.0.0" "24" [100, 50, 25] =
        some (.ok ["192.168.0.0/25", "192.168.0.128/26", "192.168.0.192/27"]) ∧
       3232235520 + 128 ≤ 3232235648 ∧ 3232235648 + 64 ≤ 3232235712 ∧
       3232235712 + 32 ≤ 3232235520 + 256) := by
  obtain ⟨hcs, hhcs, hfa⟩ := hostCountsOf_spec sizes hb
  refine ⟨hcs, hhcs, hfa, ⟨?_, ?_⟩, rfl, by norm_num, by norm_num, by norm_num⟩
  · intro hgt
    simp only [SplitNetwork, hnet, hhcs, if_pos hgt]
  · intro hle
    have hng : ¬(hcs.foldl (fun acc h => (acc + h) % u32) 0 >
        (1 <<< (32 - net.bitCount)) % u32) := by omega
    obtain ⟨ip, m, bc, hp, hm, _, _, _, hnid, _, _, _⟩ := CalculateNetwork_ok hnet
    have hcur : net.networkID < u32 := by
      rw [hnid]
      exact lt_of_le_of_lt (Nat.and_le_left) (ParseIPv4_lt hp)
    have halloc := splitAlloc_spec hcs net.networkID hcur
      (fun h hh => by
        obtain ⟨a, _, k, hk2, hk31, he, _⟩ := forall₂_mem_right hfa h hh
        exact ⟨k, hk2, hk31, he⟩)
    constructor
    · simp only [SplitNetwork, hnet, hhcs, if_neg hng, halloc]
    · rw [allocBlocks_length]
      exact (List.Forall₂.length_eq hfa).symm

/-- Witness for the amended C2: the spec's example split. -/
theorem claim_C2_witness :
    SplitNetwork "192.168.0.0" "24" [100, 50, 25] =
      some (.ok ["192.168.0.0/25", "192.168.0.128/26", "192.168.0.192/27"]) := by
  obtain ⟨hcs, h1, h2, h3, hex, h4⟩ := claim_C2_split_network "192.168.0.0" "24"
    [100, 50, 25] _ rfl (by decide)
  exact hex
